import Mathlib

/-!
Verification development for the go-orbitdb operation log and its database views.

Shallow embedding of:
* `oplog/clock.go` — Lamport clocks, `CompareClocks`, `TickClock`;
* `oplog/entry.go` — the entry record, its canonical dag-cbor encoding
  (`Encode`), decoding (`Decode`), entry construction (`NewEntry`) and
  signature verification (`VerifyEntrySignature`);
* the log (`Append`, `JoinEntry`, `Clear`, `Values`, head tracking);
* the `KeyValue.Get` and `Documents.All` view reductions.

Modelling conventions:
* a Go `string` is a byte sequence, modelled as `List Nat` (`GoStr`);
* a Go `int`/`int64` is modelled as `Int` (clock times in this program arise
  only from `NewClock(_, 0)` and `TickClock`, so overflow cannot occur);
* external collaborators — SHA-256/CID/base58 hashing, the ECDSA keystore and
  `encoding/json` — are modelled as explicit function parameters
  (`CryptoPrims`, payload-decoder arguments), exactly the sign/verify/hash
  contracts the core depends on;
* the in-memory storage backend (a Go map `hash → bytes`) is modelled as an
  association list with replace-on-put semantics; a fallible storage `Put` is
  modelled by a `put` function returning `Option`.
-/

namespace OrbitDB

/-- Go strings are byte sequences; we model them as lists of naturals. -/
abbrev GoStr := List Nat

/-- Byte slices (`[]byte`). -/
abbrev Bytes := List Nat

/-- Bytewise lexicographic strict order: Go's `<` on strings. -/
def goLt : GoStr → GoStr → Bool
  | [], [] => false
  | [], _ :: _ => true
  | _ :: _, [] => false
  | a :: as, b :: bs => if a < b then true else if b < a then false else goLt as bs

theorem goLt_irrefl (s : GoStr) : goLt s s = false := by
  induction s with
  | nil => rfl
  | cons a as ih => simp [goLt, ih]

theorem goLt_trichotomy (a b : GoStr) (h : a ≠ b) :
    goLt a b = true ∨ goLt b a = true := by
  induction a generalizing b with
  | nil =>
    cases b with
    | nil => exact absurd rfl h
    | cons y ys => left; rfl
  | cons x xs ih =>
    cases b with
    | nil => right; rfl
    | cons y ys =>
      rcases Nat.lt_trichotomy x y with hxy | hxy | hxy
      · left; simp [goLt, hxy]
      · subst hxy
        have hne : xs ≠ ys := fun hh => h (by rw [hh])
        rcases ih ys hne with h1 | h1
        · left; simp [goLt, h1]
        · right; simp [goLt, h1]
      · right; simp [goLt, hxy, Nat.not_lt.mpr (Nat.le_of_lt hxy)]

theorem goLt_asymm {a b : GoStr} (h : goLt a b = true) : goLt b a = false := by
  induction a generalizing b with
  | nil =>
    cases b with
    | nil => simp [goLt] at h
    | cons y ys => rfl
  | cons x xs ih =>
    cases b with
    | nil => simp [goLt] at h
    | cons y ys =>
      by_cases hxy : x < y
      · simp [goLt, hxy, Nat.not_lt.mpr (Nat.le_of_lt hxy)]
      · by_cases hyx : y < x
        · simp [goLt, hxy, hyx] at h
        · simp [goLt, hxy, hyx] at h ⊢
          exact ih h

theorem goLt_trans {a b c : GoStr} (h1 : goLt a b = true) (h2 : goLt b c = true) :
    goLt a c = true := by
  induction a generalizing b c with
  | nil =>
    cases b with
    | nil => simp [goLt] at h1
    | cons y ys =>
      cases c with
      | nil => simp [goLt] at h2
      | cons z zs => rfl
  | cons x xs ih =>
    cases b with
    | nil => simp [goLt] at h1
    | cons y ys =>
      cases c with
      | nil => simp [goLt] at h2
      | cons z zs =>
        by_cases hxy : x < y
        · by_cases hyz : y < z
          · simp [goLt, Nat.lt_trans hxy hyz]
          · by_cases hzy : z < y
            · simp [goLt, hyz, hzy] at h2
            · have : y = z := Nat.le_antisymm (Nat.not_lt.mp hzy) (Nat.not_lt.mp hyz)
              subst this
              simp [goLt, hxy]
        · by_cases hyx : y < x
          · simp [goLt, hxy, hyx] at h1
          · have hxyeq : x = y := Nat.le_antisymm (Nat.not_lt.mp hyx) (Nat.not_lt.mp hxy)
            subst hxyeq
            simp [goLt, hxy] at h1
            by_cases hyz : x < z
            · simp [goLt, hyz]
            · by_cases hzy : z < x
              · simp [goLt, hyz, hzy] at h2
              · simp [goLt, hyz, hzy] at h2 ⊢
                exact ih h1 h2

theorem goLt_ne {a b : GoStr} (h : goLt a b = true) : a ≠ b := by
  intro hh; subst hh; rw [goLt_irrefl] at h; exact Bool.false_ne_true h

/-! ## Clock (`oplog/clock.go`)

```go
type Clock struct { ID string; Time int }
func NewClock(id string, time int) Clock { return Clock{ID: id, Time: time} }
func CompareClocks(a Clock, b Clock) (res int) {
    dist := a.Time - b.Time
    res = dist
    if dist == 0 && a.ID != b.ID {
        if a.ID < b.ID { res = -1 } else { res = 1 }
    }
    return
}
func TickClock(c Clock) Clock { return Clock{ID: c.ID, Time: c.Time + 1} }
```
-/

structure Clock where
  id : GoStr
  time : Int
deriving DecidableEq, Repr

def NewClock (id : GoStr) (time : Int) : Clock := ⟨id, time⟩

/-- Two's-complement wraparound into `int64`.  Go's `int` is 64 bits wide on
the supported platforms, so the subtraction `a.Time - b.Time` in
`CompareClocks` is computed modulo `2^64` and read back in `[-2^63, 2^63)`. -/
def wrap64 (x : Int) : Int := (x + 2 ^ 63) % 2 ^ 64 - 2 ^ 63

def CompareClocks (a b : Clock) : Int :=
  if wrap64 (a.time - b.time) = 0 ∧ a.id ≠ b.id then (if goLt a.id b.id then -1 else 1)
  else wrap64 (a.time - b.time)

def TickClock (c : Clock) : Clock := ⟨c.id, c.time + 1⟩

/-- The comparison `CompareClocks` computes when the `int64` subtraction does
not overflow; the order lemmas below are proved for this total comparator and
then transported to `CompareClocks` on clocks whose times are in range. -/
def clockCmp (a b : Clock) : Int :=
  if a.time - b.time = 0 ∧ a.id ≠ b.id then (if goLt a.id b.id then -1 else 1)
  else a.time - b.time

/-- Clock times far enough from the `int64` boundaries that no subtraction
between two of them can wrap. -/
def ClockInRange (c : Clock) : Prop := -(2 ^ 62) < c.time ∧ c.time < 2 ^ 62

instance (c : Clock) : Decidable (ClockInRange c) := by
  unfold ClockInRange
  exact instDecidableAnd

theorem wrap64_eq_self {x : Int} (h1 : -(2 ^ 63) ≤ x) (h2 : x < 2 ^ 63) :
    wrap64 x = x := by
  unfold wrap64
  omega

/-- On in-range clocks the wrapping comparison agrees with the total one. -/
theorem CompareClocks_eq_clockCmp {a b : Clock}
    (ha : ClockInRange a) (hb : ClockInRange b) :
    CompareClocks a b = clockCmp a b := by
  obtain ⟨ha1, ha2⟩ := ha
  obtain ⟨hb1, hb2⟩ := hb
  have hw : wrap64 (a.time - b.time) = a.time - b.time :=
    wrap64_eq_self (by omega) (by omega)
  rw [CompareClocks, clockCmp, hw]

/-- Exhaustive case analysis of `clockCmp`. -/
theorem clockCmp_cases (a b : Clock) :
    (a.time ≠ b.time ∧ clockCmp a b = a.time - b.time) ∨
    (a.time = b.time ∧ a.id = b.id ∧ clockCmp a b = 0) ∨
    (a.time = b.time ∧ goLt a.id b.id = true ∧ clockCmp a b = -1) ∨
    (a.time = b.time ∧ goLt b.id a.id = true ∧ clockCmp a b = 1) := by
  by_cases ht : a.time = b.time
  · by_cases hid : a.id = b.id
    · right; left
      refine ⟨ht, hid, ?_⟩
      rw [clockCmp, if_neg (by simp [hid])]
      omega
    · rcases goLt_trichotomy a.id b.id hid with hlt | hlt
      · right; right; left
        refine ⟨ht, hlt, ?_⟩
        rw [clockCmp, if_pos ⟨by omega, hid⟩, if_pos hlt]
      · right; right; right
        refine ⟨ht, hlt, ?_⟩
        have hnlt : goLt a.id b.id = false := goLt_asymm hlt
        rw [clockCmp, if_pos ⟨by omega, hid⟩, if_neg (by simp [hnlt])]
  · left
    refine ⟨ht, ?_⟩
    rw [clockCmp, if_neg]
    rintro ⟨h0, _⟩
    omega

theorem clockCmp_self (a : Clock) : clockCmp a a = 0 := by
  rw [clockCmp, if_neg (by simp)]
  omega

theorem clockCmp_neg_iff (a b : Clock) :
    clockCmp a b < 0 ↔ (a.time < b.time ∨ (a.time = b.time ∧ goLt a.id b.id = true)) := by
  constructor
  · intro h
    rcases clockCmp_cases a b with ⟨ht, he⟩ | ⟨ht, _, he⟩ | ⟨ht, hlt, he⟩ | ⟨_, _, he⟩ <;>
      rw [he] at h
    · left; omega
    · exact ((by omega : False)).elim
    · exact Or.inr ⟨ht, hlt⟩
    · exact ((by omega : False)).elim
  · rintro (h | ⟨ht, hlt⟩)
    · rcases clockCmp_cases a b with ⟨_, he⟩ | ⟨ht, _, _⟩ | ⟨ht, _, _⟩ | ⟨ht, _, _⟩
      · rw [he]; omega
      · exact ((by omega : False)).elim
      · exact ((by omega : False)).elim
      · exact ((by omega : False)).elim
    · rcases clockCmp_cases a b with ⟨hne, _⟩ | ⟨_, hid, _⟩ | ⟨_, _, he⟩ | ⟨_, hba, _⟩
      · exact absurd ht hne
      · rw [hid, goLt_irrefl] at hlt; exact absurd hlt (by simp)
      · rw [he]; omega
      · rw [goLt_asymm hba] at hlt; exact absurd hlt (by simp)

theorem clockCmp_zero_iff (a b : Clock) :
    clockCmp a b = 0 ↔ a = b := by
  constructor
  · intro h
    rcases clockCmp_cases a b with ⟨ht, he⟩ | ⟨ht, hid, _⟩ | ⟨_, _, he⟩ | ⟨_, _, he⟩
    · rw [he] at h; exact ((by omega : False)).elim
    · cases a; cases b; simp_all
    · rw [he] at h; exact ((by omega : False)).elim
    · rw [he] at h; exact ((by omega : False)).elim
  · intro h
    subst h
    exact clockCmp_self a

theorem clockCmp_pos_iff (a b : Clock) :
    0 < clockCmp a b ↔ (b.time < a.time ∨ (a.time = b.time ∧ goLt b.id a.id = true)) := by
  constructor
  · intro h
    rcases clockCmp_cases a b with ⟨ht, he⟩ | ⟨ht, _, he⟩ | ⟨_, _, he⟩ | ⟨ht, hba, he⟩ <;>
      rw [he] at h
    · left; omega
    · exact ((by omega : False)).elim
    · exact ((by omega : False)).elim
    · exact Or.inr ⟨ht, hba⟩
  · rintro (h | ⟨ht, hba⟩)
    · rcases clockCmp_cases a b with ⟨_, he⟩ | ⟨ht, _, _⟩ | ⟨ht, _, _⟩ | ⟨ht, _, _⟩
      · rw [he]; omega
      · exact ((by omega : False)).elim
      · exact ((by omega : False)).elim
      · exact ((by omega : False)).elim
    · rcases clockCmp_cases a b with ⟨hne, _⟩ | ⟨_, hid, _⟩ | ⟨_, hab, _⟩ | ⟨_, _, he⟩
      · exact absurd ht hne
      · rw [← hid, goLt_irrefl] at hba; exact absurd hba (by simp)
      · rw [goLt_asymm hab] at hba; exact absurd hba (by simp)
      · rw [he]; omega

/-- Trichotomy-style antisymmetry: `sign(cmp(a,b)) = -sign(cmp(b,a))`. -/
theorem clockCmp_sign_antisymm (a b : Clock) :
    (clockCmp a b).sign = -(clockCmp b a).sign := by
  rcases lt_trichotomy (clockCmp a b) 0 with h | h | h
  · have hpos : 0 < clockCmp b a := by
      rw [clockCmp_pos_iff]
      rw [clockCmp_neg_iff] at h
      tauto
    rw [Int.sign_eq_neg_one_of_neg h, Int.sign_eq_one_of_pos hpos]
  · have hba : clockCmp b a = 0 := by
      rw [clockCmp_zero_iff] at h ⊢
      exact h.symm
    rw [h, hba]
    rfl
  · have hneg : clockCmp b a < 0 := by
      rw [clockCmp_neg_iff]
      rw [clockCmp_pos_iff] at h
      tauto
    rw [Int.sign_eq_one_of_pos h, Int.sign_eq_neg_one_of_neg hneg]
    rfl

/-- Strict transitivity of the order induced by `clockCmp`. -/
theorem clockCmp_trans {a b c : Clock}
    (h1 : clockCmp a b < 0) (h2 : clockCmp b c < 0) :
    clockCmp a c < 0 := by
  rw [clockCmp_neg_iff] at h1 h2 ⊢
  rcases h1 with h1 | ⟨h1t, h1i⟩
  · rcases h2 with h2 | ⟨h2t, _⟩
    · exact Or.inl (lt_trans h1 h2)
    · exact Or.inl (h2t ▸ h1)
  · rcases h2 with h2 | ⟨h2t, h2i⟩
    · exact Or.inl (h1t ▸ h2)
    · exact Or.inr ⟨h1t.trans h2t, goLt_trans h1i h2i⟩

/-- Mixed transitivity: non-strict then strict. -/
theorem clockCmp_le_lt_trans {a b c : Clock}
    (h1 : clockCmp a b ≤ 0) (h2 : clockCmp b c < 0) :
    clockCmp a c < 0 := by
  rcases lt_or_eq_of_le h1 with h1 | h1
  · exact clockCmp_trans h1 h2
  · rw [clockCmp_zero_iff] at h1
    rw [h1]
    exact h2

/-- A clock compares equal to itself even through the wraparound. -/
theorem CompareClocks_self (a : Clock) : CompareClocks a a = 0 := by
  rw [CompareClocks, if_neg (by simp)]
  rw [sub_self]
  decide

/-- On in-range clocks a strictly positive comparison flips to a strictly
negative one when the arguments are swapped. -/
theorem CompareClocks_pos_flip {a b : Clock}
    (ha : ClockInRange a) (hb : ClockInRange b)
    (h : 0 < CompareClocks a b) : CompareClocks b a < 0 := by
  rw [CompareClocks_eq_clockCmp ha hb] at h
  rw [CompareClocks_eq_clockCmp hb ha]
  rw [clockCmp_pos_iff] at h
  rw [clockCmp_neg_iff]
  rcases h with h | ⟨ht, hg⟩
  · exact Or.inl h
  · exact Or.inr ⟨ht.symm, hg⟩

/-- Mixed transitivity for `CompareClocks` on in-range clocks. -/
theorem CompareClocks_le_lt_trans {a b c : Clock}
    (ha : ClockInRange a) (hb : ClockInRange b) (hc : ClockInRange c)
    (h1 : CompareClocks a b ≤ 0) (h2 : CompareClocks b c < 0) :
    CompareClocks a c < 0 := by
  rw [CompareClocks_eq_clockCmp ha hb] at h1
  rw [CompareClocks_eq_clockCmp hb hc] at h2
  rw [CompareClocks_eq_clockCmp ha hc]
  exact clockCmp_le_lt_trans h1 h2

/-! ## The dag-cbor wire format (`oplog/entry.go`, `Encode`/`Decode`)

`Encode` assembles a 9-field map node (fields in the order `id`, `payload`,
`next`, `refs`, `clock`, `v`, `key`, `identity`, `sig`) and serialises it with
the dag-cbor codec; `Decode` parses the bytes back with a generic cbor decoder
and extracts the fields by key.  We embed the byte-level format: major type in
the three high bits of the first byte, minimal-length big-endian argument. -/

/-- Generic cbor data model values needed by the decoder (the codec only ever
meets unsigned/negative ints, text strings, lists and maps). -/
inductive CVal where
  | int (n : Int)
  | text (s : GoStr)
  | arr (xs : List CVal)
  | map (kvs : List (GoStr × CVal))

/-- Header bytes for a cbor item: major type `major`, argument `n`, encoded
with the minimal-length argument encoding dag-cbor requires. -/
def cborHdr (major n : Nat) : Bytes :=
  if n < 24 then [major * 32 + n]
  else if n < 2 ^ 8 then [major * 32 + 24, n]
  else if n < 2 ^ 16 then [major * 32 + 25, n / 2 ^ 8, n % 2 ^ 8]
  else if n < 2 ^ 32 then
    [major * 32 + 26, n / 2 ^ 24 % 2 ^ 8, n / 2 ^ 16 % 2 ^ 8, n / 2 ^ 8 % 2 ^ 8, n % 2 ^ 8]
  else
    [major * 32 + 27, n / 2 ^ 56 % 2 ^ 8, n / 2 ^ 48 % 2 ^ 8, n / 2 ^ 40 % 2 ^ 8,
      n / 2 ^ 32 % 2 ^ 8, n / 2 ^ 24 % 2 ^ 8, n / 2 ^ 16 % 2 ^ 8, n / 2 ^ 8 % 2 ^ 8, n % 2 ^ 8]

/-- A cbor text string item. -/
def cborText (s : GoStr) : Bytes := cborHdr 3 s.length ++ s

/-- A cbor integer item (major 0 for `n ≥ 0`, major 1 encoding `-1-n` otherwise),
as `assembleIntField` produces via dag-cbor. -/
def cborInt (n : Int) : Bytes :=
  if 0 ≤ n then cborHdr 0 n.toNat else cborHdr 1 (-1 - n).toNat

/-- Concatenated encodings of a sequence of text items. -/
def cborTextSeq : List GoStr → Bytes
  | [] => []
  | s :: ss => cborText s ++ cborTextSeq ss

/-- A cbor list of text strings, as `assembleStringList` produces. -/
def cborTextArr (ss : List GoStr) : Bytes := cborHdr 4 ss.length ++ cborTextSeq ss

/-- Reads back a cbor argument given the low five header bits. -/
def parseLen (info : Nat) (bs : Bytes) : Option (Nat × Bytes) :=
  if info < 24 then some (info, bs)
  else if info = 24 then
    match bs with
    | b0 :: r => some (b0, r)
    | _ => none
  else if info = 25 then
    match bs with
    | b0 :: b1 :: r => some (b0 * 2 ^ 8 + b1, r)
    | _ => none
  else if info = 26 then
    match bs with
    | b0 :: b1 :: b2 :: b3 :: r => some (((b0 * 2 ^ 8 + b1) * 2 ^ 8 + b2) * 2 ^ 8 + b3, r)
    | _ => none
  else if info = 27 then
    match bs with
    | b0 :: b1 :: b2 :: b3 :: b4 :: b5 :: b6 :: b7 :: r =>
        some (((((((b0 * 2 ^ 8 + b1) * 2 ^ 8 + b2) * 2 ^ 8 + b3) * 2 ^ 8 + b4) * 2 ^ 8 + b5)
          * 2 ^ 8 + b6) * 2 ^ 8 + b7, r)
    | _ => none
  else none

/-- Regroups a flat item list `key, value, key, value, …` into map pairs,
failing when a key item is not a text string (the generic node decoder
errors there as well). -/
def toPairs : List CVal → Option (List (GoStr × CVal))
  | [] => some []
  | .text k :: v :: rest =>
    match toPairs rest with
    | some kvs => some ((k, v) :: kvs)
    | none => none
  | _ => none

/-- Parses `n` consecutive cbor items from `bs`, fuelled so the recursion is
structural (one unit of fuel per parsed item; `Decode` supplies
`length + 1`, always sufficient since every item takes at least one byte). -/
def parseItems : Nat → Nat → Bytes → Option (List CVal × Bytes)
  | 0, _, _ => none
  | _ + 1, 0, bs => some ([], bs)
  | fuel + 1, n + 1, bs =>
    match bs with
    | [] => none
    | b :: bs0 =>
      match parseLen (b % 32) bs0 with
      | none => none
      | some (m, rest) =>
        if b / 32 = 0 then
          match parseItems fuel n rest with
          | some (xs, r) => some (.int (Int.ofNat m) :: xs, r)
          | none => none
        else if b / 32 = 1 then
          match parseItems fuel n rest with
          | some (xs, r) => some (.int (-1 - Int.ofNat m) :: xs, r)
          | none => none
        else if b / 32 = 3 then
          if m ≤ rest.length then
            match parseItems fuel n (rest.drop m) with
            | some (xs, r) => some (.text (rest.take m) :: xs, r)
            | none => none
          else none
        else if b / 32 = 4 then
          match parseItems fuel m rest with
          | some (ys, r1) =>
            match parseItems fuel n r1 with
            | some (xs, r2) => some (.arr ys :: xs, r2)
            | none => none
          | none => none
        else if b / 32 = 5 then
          match parseItems fuel (2 * m) rest with
          | some (ys, r1) =>
            match toPairs ys with
            | some kvs =>
              match parseItems fuel n r1 with
              | some (xs, r2) => some (.map kvs :: xs, r2)
              | none => none
            | none => none
          | none => none
        else none

/-- Parses one cbor item (the generic decoder's entry point). -/
def parseVal (fuel : Nat) (bs : Bytes) : Option (CVal × Bytes) :=
  match parseItems fuel 1 bs with
  | some ([x], r) => some (x, r)
  | _ => none

/-! The map keys of the canonical entry encoding, as byte strings. -/

/-- `"id"` -/
def keyStrId : GoStr := [105, 100]
/-- `"payload"` -/
def keyStrPayload : GoStr := [112, 97, 121, 108, 111, 97, 100]
/-- `"next"` -/
def keyStrNext : GoStr := [110, 101, 120, 116]
/-- `"refs"` -/
def keyStrRefs : GoStr := [114, 101, 102, 115]
/-- `"clock"` -/
def keyStrClock : GoStr := [99, 108, 111, 99, 107]
/-- `"time"` -/
def keyStrTime : GoStr := [116, 105, 109, 101]
/-- `"v"` -/
def keyStrV : GoStr := [118]
/-- `"key"` -/
def keyStrKey : GoStr := [107, 101, 121]
/-- `"identity"` -/
def keyStrIdentity : GoStr := [105, 100, 101, 110, 116, 105, 116, 121]
/-- `"sig"` -/
def keyStrSig : GoStr := [115, 105, 103]

/-- The emitted header parses back to the same argument. -/
theorem cborHdr_spec (major m : Nat) (_hmaj : major < 8) (hm : m < 2 ^ 64) (rest : Bytes) :
    ∃ b t, cborHdr major m = b :: t ∧ b / 32 = major ∧
      parseLen (b % 32) (t ++ rest) = some (m, rest) := by
  unfold cborHdr
  by_cases h0 : m < 24
  · refine ⟨major * 32 + m, [], by rw [if_pos h0], by omega, ?_⟩
    have hmod : (major * 32 + m) % 32 = m := by omega
    rw [hmod]
    simp [parseLen, h0]
  · by_cases h1 : m < 2 ^ 8
    · refine ⟨major * 32 + 24, [m], by rw [if_neg h0, if_pos h1], by omega, ?_⟩
      have hmod : (major * 32 + 24) % 32 = 24 := by omega
      rw [hmod]
      simp [parseLen]
    · by_cases h2 : m < 2 ^ 16
      · refine ⟨major * 32 + 25, [m / 2 ^ 8, m % 2 ^ 8],
          by rw [if_neg h0, if_neg h1, if_pos h2], by omega, ?_⟩
        have hmod : (major * 32 + 25) % 32 = 25 := by omega
        rw [hmod]
        simp only [parseLen, List.cons_append]
        norm_num
        omega
      · by_cases h3 : m < 2 ^ 32
        · refine ⟨major * 32 + 26,
            [m / 2 ^ 24 % 2 ^ 8, m / 2 ^ 16 % 2 ^ 8, m / 2 ^ 8 % 2 ^ 8, m % 2 ^ 8],
            by rw [if_neg h0, if_neg h1, if_neg h2, if_pos h3], by omega, ?_⟩
          have hmod : (major * 32 + 26) % 32 = 26 := by omega
          rw [hmod]
          simp only [parseLen, List.cons_append]
          norm_num
          omega
        · refine ⟨major * 32 + 27,
            [m / 2 ^ 56 % 2 ^ 8, m / 2 ^ 48 % 2 ^ 8, m / 2 ^ 40 % 2 ^ 8, m / 2 ^ 32 % 2 ^ 8,
              m / 2 ^ 24 % 2 ^ 8, m / 2 ^ 16 % 2 ^ 8, m / 2 ^ 8 % 2 ^ 8, m % 2 ^ 8],
            by rw [if_neg h0, if_neg h1, if_neg h2, if_neg h3], by omega, ?_⟩
          have hmod : (major * 32 + 27) % 32 = 27 := by omega
          rw [hmod]
          simp only [parseLen, List.cons_append]
          norm_num
          omega

/-- Parsing one emitted text item and continuing. -/
theorem parseItems_step_text (s : GoStr) (hs : s.length < 2 ^ 64)
    (fuel n : Nat) (rest : Bytes) (xs : List CVal) (r : Bytes)
    (h : parseItems fuel n rest = some (xs, r)) :
    parseItems (fuel + 1) (n + 1) (cborText s ++ rest) = some (.text s :: xs, r) := by
  obtain ⟨b, t, he, hdiv, hlen⟩ := cborHdr_spec 3 s.length (by omega) hs (s ++ rest)
  have hbytes : cborText s ++ rest = b :: (t ++ (s ++ rest)) := by
    simp [cborText, he]
  rw [hbytes]
  simp only [parseItems]
  rw [hlen, hdiv]
  norm_num
  rw [h]

/-- Parsing one emitted integer item and continuing. -/
theorem parseItems_step_int (k : Int) (hk : -(2 ^ 64) < k ∧ k < 2 ^ 64)
    (fuel n : Nat) (rest : Bytes) (xs : List CVal) (r : Bytes)
    (h : parseItems fuel n rest = some (xs, r)) :
    parseItems (fuel + 1) (n + 1) (cborInt k ++ rest) = some (.int k :: xs, r) := by
  by_cases hpos : 0 ≤ k
  · obtain ⟨b, t, he, hdiv, hlen⟩ := cborHdr_spec 0 k.toNat (by omega) (by omega) rest
    have hbytes : cborInt k ++ rest = b :: (t ++ rest) := by
      simp [cborInt, if_pos hpos, he]
    rw [hbytes]
    simp only [parseItems]
    rw [hlen, hdiv]
    norm_num
    rw [h, max_eq_left hpos]
  · obtain ⟨b, t, he, hdiv, hlen⟩ := cborHdr_spec 1 (-1 - k).toNat (by omega) (by omega) rest
    have hbytes : cborInt k ++ rest = b :: (t ++ rest) := by
      simp [cborInt, if_neg hpos, he]
    rw [hbytes]
    simp only [parseItems]
    rw [hlen, hdiv]
    norm_num
    rw [h, max_eq_left (by omega : (0:Int) ≤ -1 - k)]
    norm_num

/-- Parsing an emitted sequence of text items and continuing. -/
theorem parseItems_textSeq (ss : List GoStr) (hss : ∀ s ∈ ss, s.length < 2 ^ 64)
    (fuel n : Nat) (rest : Bytes) (xs : List CVal) (r : Bytes)
    (h : parseItems fuel n rest = some (xs, r)) :
    parseItems (fuel + ss.length) (n + ss.length) (cborTextSeq ss ++ rest) =
      some (ss.map .text ++ xs, r) := by
  induction ss generalizing n with
  | nil => simpa [cborTextSeq] using h
  | cons s ss ih =>
    have hrec := ih (fun u hu => hss u (List.mem_cons_of_mem _ hu)) n h
    have hstep := parseItems_step_text s (hss s (List.mem_cons_self _ _))
      (fuel + ss.length) (n + ss.length) (cborTextSeq ss ++ rest) (ss.map .text ++ xs) r hrec
    have harr : cborTextSeq (s :: ss) ++ rest = cborText s ++ (cborTextSeq ss ++ rest) := by
      simp [cborTextSeq]
    have hfix1 : fuel + (s :: ss).length = fuel + ss.length + 1 := by
      simp [Nat.add_assoc]
    have hfix2 : n + (s :: ss).length = n + ss.length + 1 := by
      simp [Nat.add_assoc]
    rw [harr, hfix1, hfix2, hstep]
    simp

/-- Extra fuel never changes a successful parse. -/
theorem parseItems_mono_succ :
    ∀ (fuel n : Nat) (bs : Bytes) (res : List CVal × Bytes),
      parseItems fuel n bs = some res → parseItems (fuel + 1) n bs = some res := by
  intro fuel
  induction fuel with
  | zero => intro n bs res h; simp [parseItems] at h
  | succ f ih =>
    intro n bs res h
    match n with
    | 0 => simpa [parseItems] using h
    | n + 1 =>
      match bs with
      | [] => simp [parseItems] at h
      | b :: bs0 =>
        simp only [parseItems] at h ⊢
        cases hp : parseLen (b % 32) bs0 with
        | none => rw [hp] at h; simp at h
        | some mr =>
          obtain ⟨m, rest⟩ := mr
          rw [hp] at h
          dsimp only at h ⊢
          split_ifs at h ⊢ with h0 h1 h3 hlen h4 h5
          · cases hi : parseItems f n rest with
            | none => rw [hi] at h; simp at h
            | some p =>
              obtain ⟨xs, r⟩ := p
              rw [hi] at h
              rw [ih n rest (xs, r) hi]
              exact h
          · cases hi : parseItems f n rest with
            | none => rw [hi] at h; simp at h
            | some p =>
              obtain ⟨xs, r⟩ := p
              rw [hi] at h
              rw [ih n rest (xs, r) hi]
              exact h
          · cases hi : parseItems f n (rest.drop m) with
            | none => rw [hi] at h; simp at h
            | some p =>
              obtain ⟨xs, r⟩ := p
              rw [hi] at h
              rw [ih n (rest.drop m) (xs, r) hi]
              exact h
          · cases hi : parseItems f m rest with
            | none => rw [hi] at h; simp at h
            | some p =>
              obtain ⟨ys, r1⟩ := p
              rw [hi] at h
              rw [ih m rest (ys, r1) hi]
              dsimp only at h ⊢
              cases hi2 : parseItems f n r1 with
              | none => rw [hi2] at h; simp at h
              | some p2 =>
                obtain ⟨xs, r2⟩ := p2
                rw [hi2] at h
                rw [ih n r1 (xs, r2) hi2]
                exact h
          · cases hi : parseItems f (2 * m) rest with
            | none => rw [hi] at h; simp at h
            | some p =>
              obtain ⟨ys, r1⟩ := p
              rw [hi] at h
              rw [ih (2 * m) rest (ys, r1) hi]
              dsimp only at h ⊢
              cases htp : toPairs ys with
              | none => rw [htp] at h; simp at h
              | some kvs =>
                rw [htp] at h
                dsimp only at h ⊢
                cases hi2 : parseItems f n r1 with
                | none => rw [hi2] at h; simp at h
                | some p2 =>
                  obtain ⟨xs, r2⟩ := p2
                  rw [hi2] at h
                  rw [ih n r1 (xs, r2) hi2]
                  exact h

/-- Fuel monotonicity. -/
theorem parseItems_mono {fuel fuel' : Nat} (hle : fuel ≤ fuel')
    {n : Nat} {bs : Bytes} {res : List CVal × Bytes}
    (h : parseItems fuel n bs = some res) : parseItems fuel' n bs = some res := by
  induction fuel' with
  | zero =>
    have : fuel = 0 := by omega
    subst this
    exact h
  | succ f ih =>
    by_cases he : fuel = f + 1
    · subst he; exact h
    · exact parseItems_mono_succ f n bs res (ih (by omega))

/-- Parsing an emitted list-of-texts item and continuing. -/
theorem parseItems_step_textArr (ss : List GoStr) (hlen : ss.length < 2 ^ 64)
    (hss : ∀ s ∈ ss, s.length < 2 ^ 64)
    (fuel n : Nat) (rest : Bytes) (xs : List CVal) (r : Bytes)
    (hfuel : 1 ≤ fuel)
    (h : parseItems fuel n rest = some (xs, r)) :
    parseItems (fuel + ss.length + 1) (n + 1) (cborTextArr ss ++ rest) =
      some (.arr (ss.map .text) :: xs, r) := by
  obtain ⟨b, t, he, hdiv, hplen⟩ :=
    cborHdr_spec 4 ss.length (by omega) hlen (cborTextSeq ss ++ rest)
  have hbytes : cborTextArr ss ++ rest = b :: (t ++ (cborTextSeq ss ++ rest)) := by
    simp [cborTextArr, he]
  rw [hbytes]
  simp only [parseItems]
  rw [hplen, hdiv]
  norm_num
  have hbase : parseItems fuel 0 rest = some ([], rest) := by
    match fuel, hfuel with
    | f + 1, _ => simp [parseItems]
  have hinner := parseItems_textSeq ss hss fuel 0 rest [] rest hbase
  rw [Nat.zero_add, List.append_nil] at hinner
  rw [hinner]
  dsimp only
  rw [parseItems_mono (by omega : fuel ≤ fuel + ss.length) h]

/-- A clock encodes as a two-entry map node (`assembleClock`). -/
def cborClock (c : Clock) : Bytes :=
  cborHdr 5 2 ++ cborText keyStrId ++ cborText c.id ++ cborText keyStrTime ++ cborInt c.time

/-- The pair list of a clock's map node. -/
def clockKVs (c : Clock) : List (GoStr × CVal) :=
  [(keyStrId, .text c.id), (keyStrTime, .int c.time)]

/-- The cbor data-model value a clock round-trips through. -/
def clockCVal (c : Clock) : CVal := .map (clockKVs c)

/-- Parsing an emitted clock-map item and continuing. -/
theorem parseItems_step_clock (c : Clock)
    (hid : c.id.length < 2 ^ 64) (ht : -(2 ^ 64) < c.time ∧ c.time < 2 ^ 64)
    (fuel n : Nat) (rest : Bytes) (xs : List CVal) (r : Bytes)
    (hfuel : 1 ≤ fuel)
    (h : parseItems fuel n rest = some (xs, r)) :
    parseItems (fuel + 5) (n + 1) (cborClock c ++ rest) = some (clockCVal c :: xs, r) := by
  obtain ⟨b, t, he, hdiv, hplen⟩ := cborHdr_spec 5 2 (by omega) (by norm_num)
    (cborText keyStrId ++ (cborText c.id ++ (cborText keyStrTime ++ (cborInt c.time ++ rest))))
  have hbytes : cborClock c ++ rest =
      b :: (t ++ (cborText keyStrId ++ (cborText c.id ++ (cborText keyStrTime ++
        (cborInt c.time ++ rest))))) := by
    simp [cborClock, he, List.append_assoc]
  rw [show fuel + 5 = (fuel + 4) + 1 from by omega, hbytes]
  simp only [parseItems]
  rw [hplen, hdiv]
  norm_num
  have hbase : parseItems fuel 0 rest = some ([], rest) := by
    match fuel, hfuel with
    | f + 1, _ => simp [parseItems]
  have h1 := parseItems_step_int c.time ht fuel 0 rest [] rest hbase
  have h2 := parseItems_step_text keyStrTime (by norm_num [keyStrTime]) (fuel + 1) 1
    (cborInt c.time ++ rest) [.int c.time] rest h1
  rw [← List.append_assoc] at h2
  have h3 := parseItems_step_text c.id hid (fuel + 2) 2
    (cborText keyStrTime ++ cborInt c.time ++ rest) [.text keyStrTime, .int c.time] rest h2
  rw [← List.append_assoc] at h3
  have h4 := parseItems_step_text keyStrId (by norm_num [keyStrId]) (fuel + 3) 3
    (cborText c.id ++ (cborText keyStrTime ++ cborInt c.time) ++ rest)
    [.text c.id, .text keyStrTime, .int c.time] rest h3
  have h4' : parseItems (fuel + 4) 4
      (cborText keyStrId ++ (cborText c.id ++ (cborText keyStrTime ++ (cborInt c.time ++ rest)))) =
      some ([.text keyStrId, .text c.id, .text keyStrTime, .int c.time], rest) := by
    rw [show fuel + 4 = fuel + 3 + 1 from by omega]
    have heq : cborText keyStrId ++ (cborText c.id ++ (cborText keyStrTime ++
        (cborInt c.time ++ rest))) =
        cborText keyStrId ++ (cborText c.id ++ (cborText keyStrTime ++ cborInt c.time) ++ rest) := by
      simp [List.append_assoc]
    rw [heq]
    exact h4
  rw [h4']
  have htp : toPairs [.text keyStrId, .text c.id, .text keyStrTime, .int c.time] =
      some [(keyStrId, .text c.id), (keyStrTime, .int c.time)] := by
    simp [toPairs]
  dsimp only
  rw [htp]
  dsimp only
  rw [parseItems_mono (by omega : fuel ≤ fuel + 4) h]
  simp [clockCVal, clockKVs]

/-! ## Entry (`oplog/entry.go`)

```go
type Entry struct {
    ID string; Payload string; Next []string; Refs []string
    Clock Clock; V int; Key string; Identity string; Signature string
}
```
`Encode` emits the nine fields, in declaration order, as a dag-cbor map. -/

structure Entry where
  id : GoStr
  payload : GoStr
  next : List GoStr
  refs : List GoStr
  clock : Clock
  v : Int
  key : GoStr
  identity : GoStr
  sig : GoStr
deriving DecidableEq, Repr

/-- The canonical dag-cbor bytes of an entry (`Encode`'s serialisation). -/
def encodeEntryBytes (e : Entry) : Bytes :=
  cborHdr 5 9 ++
  cborText keyStrId ++ cborText e.id ++
  cborText keyStrPayload ++ cborText e.payload ++
  cborText keyStrNext ++ cborTextArr e.next ++
  cborText keyStrRefs ++ cborTextArr e.refs ++
  cborText keyStrClock ++ cborClock e.clock ++
  cborText keyStrV ++ cborInt e.v ++
  cborText keyStrKey ++ cborText e.key ++
  cborText keyStrIdentity ++ cborText e.identity ++
  cborText keyStrSig ++ cborText e.sig

/-- The pair list of an encoded entry's map node. -/
def entryKVs (e : Entry) : List (GoStr × CVal) :=
  [(keyStrId, .text e.id), (keyStrPayload, .text e.payload),
    (keyStrNext, .arr (e.next.map .text)), (keyStrRefs, .arr (e.refs.map .text)),
    (keyStrClock, clockCVal e.clock), (keyStrV, .int e.v),
    (keyStrKey, .text e.key), (keyStrIdentity, .text e.identity),
    (keyStrSig, .text e.sig)]

/-- The cbor data-model value an encoded entry parses back to. -/
def entryCVal (e : Entry) : CVal := .map (entryKVs e)

/-- A Go string value: its bytes fit in bytes and its length is
cbor-representable.  True of every string a Go program can hold. -/
def WfStr (s : GoStr) : Prop := s.length < 2 ^ 64 ∧ ∀ b ∈ s, b < 256

instance (s : GoStr) : Decidable (WfStr s) := by unfold WfStr; infer_instance

/-- Well-formedness of an entry record: every field is a representable Go
value (string contents are bytes, lengths and integers fit in 64 bits). -/
def WfEntry (e : Entry) : Prop :=
  WfStr e.id ∧ WfStr e.payload ∧
  e.next.length < 2 ^ 64 ∧ (∀ s ∈ e.next, WfStr s) ∧
  e.refs.length < 2 ^ 64 ∧ (∀ s ∈ e.refs, WfStr s) ∧
  WfStr e.clock.id ∧ (-(2 ^ 64) < e.clock.time ∧ e.clock.time < 2 ^ 64) ∧
  (-(2 ^ 64) < e.v ∧ e.v < 2 ^ 64) ∧
  WfStr e.key ∧ WfStr e.identity ∧ WfStr e.sig

instance (e : Entry) : Decidable (WfEntry e) := by unfold WfEntry; infer_instance

/-- Full parse of the canonical encoding of a well-formed entry. -/
theorem parseItems_encodeEntry (e : Entry) (wf : WfEntry e) (f0 : Nat) (hf : 1 ≤ f0) :
    parseItems (f0 + (23 + e.next.length + e.refs.length)) 1 (encodeEntryBytes e) =
      some ([entryCVal e], []) := by
  obtain ⟨wid, wpayload, wnl, wn, wrl, wr, wcid, wct, wv, wkey, widen, wsig⟩ := wf
  have hbase : parseItems f0 0 [] = some ([], []) := by
    match f0, hf with
    | f + 1, _ => simp [parseItems]
  have h1 := parseItems_step_text e.sig wsig.1 _ _ _ _ _ hbase
  rw [List.append_nil] at h1
  have h2 := parseItems_step_text keyStrSig (by norm_num [keyStrSig]) _ _ _ _ _ h1
  have h3 := parseItems_step_text e.identity widen.1 _ _ _ _ _ h2
  have h4 := parseItems_step_text keyStrIdentity (by norm_num [keyStrIdentity]) _ _ _ _ _ h3
  have h5 := parseItems_step_text e.key wkey.1 _ _ _ _ _ h4
  have h6 := parseItems_step_text keyStrKey (by norm_num [keyStrKey]) _ _ _ _ _ h5
  have h7 := parseItems_step_int e.v wv _ _ _ _ _ h6
  have h8 := parseItems_step_text keyStrV (by norm_num [keyStrV]) _ _ _ _ _ h7
  have h9 := parseItems_step_clock e.clock wcid.1 wct _ _ _ _ _ (by omega) h8
  have h10 := parseItems_step_text keyStrClock (by norm_num [keyStrClock]) _ _ _ _ _ h9
  have h11 := parseItems_step_textArr e.refs wrl (fun s hs => (wr s hs).1) _ _ _ _ _ (by omega) h10
  have h12 := parseItems_step_text keyStrRefs (by norm_num [keyStrRefs]) _ _ _ _ _ h11
  have h13 := parseItems_step_textArr e.next wnl (fun s hs => (wn s hs).1) _ _ _ _ _ (by omega) h12
  have h14 := parseItems_step_text keyStrNext (by norm_num [keyStrNext]) _ _ _ _ _ h13
  have h15 := parseItems_step_text e.payload wpayload.1 _ _ _ _ _ h14
  have h16 := parseItems_step_text keyStrPayload (by norm_num [keyStrPayload]) _ _ _ _ _ h15
  have h17 := parseItems_step_text e.id wid.1 _ _ _ _ _ h16
  have h18 := parseItems_step_text keyStrId (by norm_num [keyStrId]) _ _ _ _ _ h17
  obtain ⟨b, t, he, hdiv, hplen⟩ := cborHdr_spec 5 9 (by omega) (by norm_num)
    (cborText keyStrId ++ (cborText e.id ++ (cborText keyStrPayload ++ (cborText e.payload ++
     (cborText keyStrNext ++ (cborTextArr e.next ++ (cborText keyStrRefs ++ (cborTextArr e.refs ++
     (cborText keyStrClock ++ (cborClock e.clock ++ (cborText keyStrV ++ (cborInt e.v ++
     (cborText keyStrKey ++ (cborText e.key ++ (cborText keyStrIdentity ++ (cborText e.identity ++
     (cborText keyStrSig ++ cborText e.sig)))))))))))))))))
  have hbytes : encodeEntryBytes e =
      b :: (t ++ (cborText keyStrId ++ (cborText e.id ++ (cborText keyStrPayload ++
      (cborText e.payload ++ (cborText keyStrNext ++ (cborTextArr e.next ++
      (cborText keyStrRefs ++ (cborTextArr e.refs ++ (cborText keyStrClock ++
      (cborClock e.clock ++ (cborText keyStrV ++ (cborInt e.v ++ (cborText keyStrKey ++
      (cborText e.key ++ (cborText keyStrIdentity ++ (cborText e.identity ++
      (cborText keyStrSig ++ cborText e.sig)))))))))))))))))) := by
    simp [encodeEntryBytes, he, List.append_assoc]
  rw [hbytes]
  have hfuel : f0 + (23 + e.next.length + e.refs.length) =
      (f0 + 22 + e.next.length + e.refs.length) + 1 := by omega
  rw [hfuel]
  simp only [parseItems]
  rw [hplen, hdiv]
  norm_num
  have h18' : parseItems (f0 + 22 + e.next.length + e.refs.length) 18
      (cborText keyStrId ++ (cborText e.id ++ (cborText keyStrPayload ++ (cborText e.payload ++
       (cborText keyStrNext ++ (cborTextArr e.next ++ (cborText keyStrRefs ++ (cborTextArr e.refs ++
       (cborText keyStrClock ++ (cborClock e.clock ++ (cborText keyStrV ++ (cborInt e.v ++
       (cborText keyStrKey ++ (cborText e.key ++ (cborText keyStrIdentity ++ (cborText e.identity ++
       (cborText keyStrSig ++ cborText e.sig))))))))))))))))) =
      some ([.text keyStrId, .text e.id, .text keyStrPayload, .text e.payload,
        .text keyStrNext, .arr (e.next.map .text), .text keyStrRefs, .arr (e.refs.map .text),
        .text keyStrClock, clockCVal e.clock, .text keyStrV, .int e.v,
        .text keyStrKey, .text e.key, .text keyStrIdentity, .text e.identity,
        .text keyStrSig, .text e.sig], []) := by
    have hff : f0 + 22 + e.next.length + e.refs.length =
        f0 + 1 + 1 + 1 + 1 + 1 + 1 + 1 + 1 + 5 + 1 + (e.refs.length + 1) + 1 +
          (e.next.length + 1) + 1 + 1 + 1 + 1 + 1 := by omega
    rw [hff]
    convert h18 using 2
  rw [h18']
  dsimp only
  have htp : toPairs [CVal.text keyStrId, .text e.id, .text keyStrPayload, .text e.payload,
      .text keyStrNext, .arr (e.next.map .text), .text keyStrRefs, .arr (e.refs.map .text),
      .text keyStrClock, clockCVal e.clock, .text keyStrV, .int e.v,
      .text keyStrKey, .text e.key, .text keyStrIdentity, .text e.identity,
      .text keyStrSig, .text e.sig] =
      some [(keyStrId, .text e.id), (keyStrPayload, .text e.payload),
        (keyStrNext, .arr (e.next.map .text)), (keyStrRefs, .arr (e.refs.map .text)),
        (keyStrClock, clockCVal e.clock), (keyStrV, .int e.v),
        (keyStrKey, .text e.key), (keyStrIdentity, .text e.identity),
        (keyStrSig, .text e.sig)] := by
    simp [toPairs]
  rw [htp]
  dsimp only
  have hcont : parseItems (f0 + 22 + e.next.length + e.refs.length) 0 [] = some ([], []) := by
    have : (1:Nat) ≤ f0 + 22 + e.next.length + e.refs.length := by omega
    match hm : f0 + 22 + e.next.length + e.refs.length, this with
    | f + 1, _ => simp [parseItems]
  rw [hcont]
  simp [entryCVal, entryKVs]



theorem cborHdr_len_ge (major m : Nat) : 1 ≤ (cborHdr major m).length := by
  unfold cborHdr
  split_ifs <;> simp

theorem cborText_len_ge (s : GoStr) : 1 ≤ (cborText s).length := by
  unfold cborText
  rw [List.length_append]
  have := cborHdr_len_ge 3 s.length
  omega

theorem cborInt_len_ge (k : Int) : 1 ≤ (cborInt k).length := by
  unfold cborInt
  split_ifs
  · exact cborHdr_len_ge 0 _
  · exact cborHdr_len_ge 1 _

theorem cborTextSeq_len_ge (ss : List GoStr) : ss.length ≤ (cborTextSeq ss).length := by
  induction ss with
  | nil => simp [cborTextSeq]
  | cons s ss ih =>
    have := cborText_len_ge s
    simp only [cborTextSeq, List.length_append, List.length_cons]
    omega

theorem cborTextArr_len_ge (ss : List GoStr) : ss.length + 1 ≤ (cborTextArr ss).length := by
  unfold cborTextArr
  rw [List.length_append]
  have h1 := cborHdr_len_ge 4 ss.length
  have h2 := cborTextSeq_len_ge ss
  omega

theorem cborClock_len_ge (c : Clock) : 5 ≤ (cborClock c).length := by
  unfold cborClock
  simp only [List.length_append]
  have h1 := cborHdr_len_ge 5 2
  have h2 := cborText_len_ge keyStrId
  have h3 := cborText_len_ge c.id
  have h4 := cborText_len_ge keyStrTime
  have h5 := cborInt_len_ge c.time
  omega

/-- Every parsed item consumes at least one byte, so the canonical encoding is
at least as long as the item count of the entry. -/
theorem encodeEntryBytes_len_ge (e : Entry) :
    23 + e.next.length + e.refs.length ≤ (encodeEntryBytes e).length := by
  unfold encodeEntryBytes
  simp only [List.length_append]
  have b0 := cborHdr_len_ge 5 9
  have b1 := cborText_len_ge keyStrId
  have b2 := cborText_len_ge e.id
  have b3 := cborText_len_ge keyStrPayload
  have b4 := cborText_len_ge e.payload
  have b5 := cborText_len_ge keyStrNext
  have b6 := cborTextArr_len_ge e.next
  have b7 := cborText_len_ge keyStrRefs
  have b8 := cborTextArr_len_ge e.refs
  have b9 := cborText_len_ge keyStrClock
  have b10 := cborClock_len_ge e.clock
  have b11 := cborText_len_ge keyStrV
  have b12 := cborInt_len_ge e.v
  have b13 := cborText_len_ge keyStrKey
  have b14 := cborText_len_ge e.key
  have b15 := cborText_len_ge keyStrIdentity
  have b16 := cborText_len_ge e.identity
  have b17 := cborText_len_ge keyStrSig
  have b18 := cborText_len_ge e.sig
  omega

/-! The generic node-lookup helpers of `Decode` (`getString`, `getInt`,
`getStringList`, `LookupByString`). -/

/-- `LookupByString` on a parsed map node. -/
def cvLookup : List (GoStr × CVal) → GoStr → Option CVal
  | [], _ => none
  | (k1, v) :: rest, k => if k1 = k then some v else cvLookup rest k

/-- `getString`: looks up `k` and requires a text node. -/
def nodeGetString (kvs : List (GoStr × CVal)) (k : GoStr) : Option GoStr :=
  match cvLookup kvs k with
  | some (.text s) => some s
  | _ => none

/-- `getInt`: looks up `k` and requires an int node. -/
def nodeGetInt (kvs : List (GoStr × CVal)) (k : GoStr) : Option Int :=
  match cvLookup kvs k with
  | some (.int n) => some n
  | _ => none

/-- All elements of a list node as strings (`getStringList`'s loop). -/
def listTexts : List CVal → Option (List GoStr)
  | [] => some []
  | .text s :: rest =>
    match listTexts rest with
    | some l => some (s :: l)
    | none => none
  | _ => none

/-- `getStringList`: looks up `k` and requires a list node of text nodes. -/
def nodeGetStringList (kvs : List (GoStr × CVal)) (k : GoStr) : Option (List GoStr) :=
  match cvLookup kvs k with
  | some (.arr xs) => listTexts xs
  | _ => none

/-- `Decode` (field extraction part): parses the bytes with the generic cbor
decoder and reads the nine fields back by key, failing on any missing or
ill-typed field. -/
def DecodeBytes (bs : Bytes) : Option Entry :=
  match parseVal (bs.length + 1) bs with
  | some (.map kvs, _) =>
    match nodeGetString kvs keyStrId, nodeGetString kvs keyStrPayload,
        nodeGetInt kvs keyStrV, nodeGetString kvs keyStrKey,
        nodeGetString kvs keyStrIdentity, nodeGetString kvs keyStrSig,
        cvLookup kvs keyStrClock with
    | some i, some p, some vv, some ky, some idn, some sg, some (.map ckvs) =>
      match nodeGetString ckvs keyStrId, nodeGetInt ckvs keyStrTime,
          nodeGetStringList kvs keyStrNext, nodeGetStringList kvs keyStrRefs with
      | some ci, some ct, some nx, some rf =>
        some ⟨i, p, nx, rf, ⟨ci, ct⟩, vv, ky, idn, sg⟩
      | _, _, _, _ => none
    | _, _, _, _, _, _, _ => none
  | _ => none

theorem listTexts_map (ss : List GoStr) : listTexts (ss.map .text) = some ss := by
  induction ss with
  | nil => rfl
  | cons s ss ih => simp [listTexts, ih]

/-- The field-level round trip: decoding the canonical encoding of a
well-formed entry recovers exactly the entry record. -/
theorem DecodeBytes_encodeEntryBytes (e : Entry) (wf : WfEntry e) :
    DecodeBytes (encodeEntryBytes e) = some e := by
  have hlen := encodeEntryBytes_len_ge e
  have hparse := parseItems_encodeEntry e wf
    ((encodeEntryBytes e).length + 1 - (23 + e.next.length + e.refs.length)) (by omega)
  rw [show (encodeEntryBytes e).length + 1 - (23 + e.next.length + e.refs.length) +
      (23 + e.next.length + e.refs.length) = (encodeEntryBytes e).length + 1 from by omega]
    at hparse
  have g1 : nodeGetString (entryKVs e) keyStrId = some e.id := rfl
  have g2 : nodeGetString (entryKVs e) keyStrPayload = some e.payload := rfl
  have g3 : nodeGetInt (entryKVs e) keyStrV = some e.v := rfl
  have g4 : nodeGetString (entryKVs e) keyStrKey = some e.key := rfl
  have g5 : nodeGetString (entryKVs e) keyStrIdentity = some e.identity := rfl
  have g6 : nodeGetString (entryKVs e) keyStrSig = some e.sig := rfl
  have g7 : cvLookup (entryKVs e) keyStrClock = some (.map (clockKVs e.clock)) := rfl
  have g8 : nodeGetString (clockKVs e.clock) keyStrId = some e.clock.id := rfl
  have g9 : nodeGetInt (clockKVs e.clock) keyStrTime = some e.clock.time := rfl
  have g10 : nodeGetStringList (entryKVs e) keyStrNext = some e.next := listTexts_map e.next
  have g11 : nodeGetStringList (entryKVs e) keyStrRefs = some e.refs := listTexts_map e.refs
  unfold DecodeBytes parseVal
  rw [hparse]
  dsimp only [entryCVal]
  rw [g1, g2, g3, g4, g5, g6, g7]
  dsimp only
  rw [g8, g9, g10, g11]
/-! ## Crypto and identity collaborators

The keystore (ECDSA P-256 sign/verify, `keystore/key-store.go`) and the
multihash/CID/base58 pipeline (`mh.Sum`, `cid.NewCidV1`, `StringOfBase`) are
external collaborators; the core only needs their function contracts, so they
are passed explicitly. -/

structure CryptoPrims where
  /-- `keystore.SignMessage(identityID, bytes)` → hex signature. -/
  sign : GoStr → Bytes → GoStr
  /-- `keystore.VerifyMessage(pubKeyBytes, bytes, hexSig)`. -/
  verify : Bytes → Bytes → GoStr → Bool
  /-- `base58btc(cidv1(dag-cbor, sha2-256(bytes)))`, the entry `Hash`. -/
  hashOf : Bytes → GoStr
  /-- The CID of the bytes (same pipeline, the `CID` field). -/
  cidOf : Bytes → GoStr

/-- The identity fields the log and entry code read
(`identitytypes.Identity`). -/
structure Identity where
  id : GoStr
  publicKey : GoStr
  hash : GoStr
deriving DecidableEq, Repr

/-- `EncodedEntry`: an entry together with its canonical bytes, CID and hash. -/
structure EncodedEntry where
  entry : Entry
  bytes : Bytes
  cid : GoStr
  hash : GoStr
deriving DecidableEq, Repr

/-- `Encode`: canonical bytes plus derived CID/hash. -/
def Encode (P : CryptoPrims) (e : Entry) : EncodedEntry :=
  { entry := e, bytes := encodeEntryBytes e, cid := P.cidOf (encodeEntryBytes e),
    hash := P.hashOf (encodeEntryBytes e) }

/-- `Decode`: parse the bytes, extract the fields, carry the derived CID/hash. -/
def Decode (P : CryptoPrims) (bs : Bytes) : Option EncodedEntry :=
  (DecodeBytes bs).map fun e =>
    { entry := e, bytes := bs, cid := P.cidOf bs, hash := P.hashOf bs }

/-- `encoding/hex`: one hex digit. -/
def hexDigit (c : Nat) : Option Nat :=
  if 48 ≤ c ∧ c ≤ 57 then some (c - 48)
  else if 97 ≤ c ∧ c ≤ 102 then some (c - 87)
  else if 65 ≤ c ∧ c ≤ 70 then some (c - 55)
  else none

/-- `hex.DecodeString`: fails on odd length or a non-hex digit. -/
def hexDecode : GoStr → Option Bytes
  | [] => some []
  | [_] => none
  | c1 :: c2 :: rest =>
    match hexDigit c1, hexDigit c2, hexDecode rest with
    | some hi, some lo, some r => some ((16 * hi + lo) :: r)
    | _, _, _ => none

/-- The entry with `key`, `identity` and `sig` cleared — the signing domain. -/
def clearedEntry (e : Entry) : Entry :=
  { id := e.id, payload := e.payload, next := e.next, refs := e.refs, clock := e.clock,
    v := e.v, key := [], identity := [], sig := [] }

/-- `VerifyEntrySignature` as defined in `src/oplog/entry.go` (lines 93–123):
re-encodes the entry without `key`/`identity`/`sig` and verifies `entry.sig`
with the public key hex-decoded from the **verifying identity's** `PublicKey`
field (rejecting keys shorter than 64 bytes). -/
def VerifyEntrySignature (P : CryptoPrims) (identity : Identity)
    (entry : EncodedEntry) : Bool :=
  let reconstructed := Encode P (clearedEntry entry.entry)
  match hexDecode identity.publicKey with
  | none => false
  | some pk =>
    if pk.length < 64 then false
    else P.verify pk reconstructed.bytes entry.entry.sig

/-- Modelled from the spec: the two-argument `VerifyEntrySignature(keystore,
entry)` called by the current `Log` revision (src/unnamed/part_022, lines
339–449) has no definition under `src/`; per the spec (§3.2, §6.2), `sig`
verifies against the canonical bytes of the entry with `key`, `identity`,
`sig` cleared, using the public key reconstructed from the entry's own `key`
field. -/
def VerifyEntrySignatureByEntryKey (P : CryptoPrims) (entry : EncodedEntry) : Bool :=
  let reconstructed := Encode P (clearedEntry entry.entry)
  match hexDecode entry.entry.key with
  | none => false
  | some pk => P.verify pk reconstructed.bytes entry.entry.sig

/-- `sort.Strings`: ascending bytewise-lexicographic order (insertion sort —
any correct sort realises Go's unspecified-algorithm contract). -/
def goLe (a b : GoStr) : Bool := !goLt b a

def insertStr (x : GoStr) : List GoStr → List GoStr
  | [] => [x]
  | y :: ys => if goLe x y then x :: y :: ys else y :: insertStr x ys

def sortStrings : List GoStr → List GoStr
  | [] => []
  | x :: xs => insertStr x (sortStrings xs)

/-- `clockOrDefault`: substitutes `(identity.PublicKey, 1)` when no clock id
was supplied. -/
def clockOrDefault (clock : Clock) (identity : Identity) : Clock :=
  if clock.id = [] then ⟨identity.publicKey, 1⟩ else clock

/-- `NewEntry` (src/oplog/entry.go): sort `next`/`refs` (nil becomes empty),
build the record with `v = 2`, encode, sign the encoded bytes via the
keystore under `identity.ID`, set `key`/`identity`/`sig`, re-encode.
(The Go code panics on nil identity or empty id/payload; `Append` only calls
it with non-empty values.) -/
def NewEntry (P : CryptoPrims) (identity : Identity) (id payload : GoStr)
    (clock : Clock) (next refs : Option (List GoStr)) : EncodedEntry :=
  let nextS := match next with
    | none => []
    | some xs => sortStrings xs
  let refsS := match refs with
    | none => []
    | some xs => sortStrings xs
  let entry0 : Entry :=
    ⟨id, payload, nextS, refsS, clockOrDefault clock identity, 2, [], [], []⟩
  let encoded := Encode P entry0
  let sg := P.sign identity.id encoded.bytes
  let entry1 : Entry :=
    ⟨id, payload, nextS, refsS, clockOrDefault clock identity, 2,
      identity.publicKey, identity.hash, sg⟩
  Encode P entry1

/-! ## Log (`src/unnamed/part_022`, second revision)

The entry storage is a Go map `hash → bytes`; the in-memory backend
(`storage/memory.go`) is an always-successful replace-on-put map, modelled as
an association list.  A general storage backend's `Put` may fail, which we
model by a `put` function returning `Option`. -/

/-- Storage contents: association list `hash → bytes`. -/
abbrev Store := List (GoStr × Bytes)

/-- A storage backend's `Put`; `none` models a returned error. -/
abbrev StoragePut := Store → GoStr → Bytes → Option Store

/-- Map update, replace-on-put (Go map assignment). -/
def alistPut : Store → GoStr → Bytes → Store
  | [], k, v => [(k, v)]
  | (k1, v1) :: rest, k, v =>
    if k1 = k then (k, v) :: rest else (k1, v1) :: alistPut rest k v

/-- Map lookup (Go map read / `MemoryStorage.Get`). -/
def alistGet : Store → GoStr → Option Bytes
  | [], _ => none
  | (k1, v1) :: rest, k => if k1 = k then some v1 else alistGet rest k

/-- The in-memory backend's `Put`: never fails. -/
def memPut : StoragePut := fun s k v => some (alistPut s k v)

/-- `Put` of a backend that reports a storage error. -/
def failPut : StoragePut := fun _ _ _ => none

/-- The log state: `(id, identity, clock, head, entries)`. -/
structure LogState where
  id : GoStr
  identity : Identity
  clock : Clock
  head : Option EncodedEntry
  entries : Store
deriving DecidableEq, Repr

/-- `NewLog`'s resulting state: `clock = (identity.ID, 0)`, no head, empty
storage. -/
def NewLogState (id : GoStr) (identity : Identity) : LogState :=
  { id := id, identity := identity, clock := NewClock identity.id 0,
    head := none, entries := [] }

/-- `Log.Append`: reject empty payload; tick the clock; `next` is the head's
hash if a head exists; build and sign the entry; put `(hash, bytes)`; set the
head.  The Go method assigns `l.Clock` *before* the `Put`, so a failed put
leaves the ticked clock behind while the head is untouched. -/
def Append (P : CryptoPrims) (put : StoragePut) (l : LogState) (payload : GoStr) :
    LogState × Option EncodedEntry :=
  if payload = [] then (l, none)
  else
    let clock1 := TickClock l.clock
    let next : Option (List GoStr) := match l.head with
      | some h => some [h.hash]
      | none => none
    let entry := NewEntry P l.identity l.id payload clock1 next none
    match put l.entries entry.hash entry.bytes with
    | none => ({ l with clock := clock1 }, none)
    | some es => ({ l with clock := clock1, entries := es, head := some entry }, some entry)

/-- `Log.JoinEntry`: reject on id mismatch; verify the signature; the worklist
holds only the given entry (nothing is ever pushed), so one unprocessed entry
is stored and the head updated when its clock is strictly greater (or the head
was nil).  An already-processed entry is skipped successfully. -/
def JoinEntry (P : CryptoPrims) (put : StoragePut) (l : LogState)
    (entry : EncodedEntry) (processed : List GoStr) :
    Option (LogState × List GoStr) :=
  if entry.entry.id ≠ l.id then none
  else if ¬ VerifyEntrySignatureByEntryKey P entry then none
  else if entry.hash ∈ processed then some (l, processed)
  else
    match put l.entries entry.hash entry.bytes with
    | none => none
    | some es =>
      let head1 := match l.head with
        | none => some entry
        | some h =>
          if CompareClocks entry.entry.clock h.entry.clock > 0 then some entry else some h
      some ({ l with entries := es, head := head1 }, entry.hash :: processed)

/-- `Log.Clear` over the in-memory backend: empty the storage, null the head;
the clock is untouched. -/
def ClearLog (l : LogState) : LogState := { l with entries := [], head := none }

/-- One mutation of the log, as issued by the database layer. -/
inductive LogOp where
  | append (payload : GoStr)
  | join (entry : EncodedEntry)

/-- Run one operation over the in-memory backend; `none` when it errors
(`ApplyOperation` uses a fresh `processed` set per delivered entry). -/
def applyOp (P : CryptoPrims) (l : LogState) : LogOp → Option LogState
  | .append p =>
    match Append P memPut l p with
    | (l1, some _) => some l1
    | (_, none) => none
  | .join e => (JoinEntry P memPut l e []).map (·.1)

/-- Run a sequence of operations, failing if any fails. -/
def runOps (P : CryptoPrims) : LogState → List LogOp → Option LogState
  | l, [] => some l
  | l, op :: ops =>
    match applyOp P l op with
    | some l1 => runOps P l1 ops
    | none => none
/-! ## `Log.Values` and the view reductions

`Values` iterates the entry storage, decodes every value, skips entries that
fail to decode or verify, and sorts ascending by `CompareClocks`
(`sort.Slice` leaves the order of equal clocks unspecified; insertion sort is
one admissible realisation).  `KeyValue.Get` walks the result newest-first;
`Documents.All` walks it oldest-first.  The two `encoding/json` stages that
turn `entry.Payload` into an operation record are external collaborators,
passed as a decoder function. -/

/-- Decode-and-verify pass of `Log.Values`. -/
def decodeVerified (P : CryptoPrims) (s : Store) : List EncodedEntry :=
  s.filterMap fun kv =>
    match Decode P kv.2 with
    | none => none
    | some e => if VerifyEntrySignatureByEntryKey P e then some e else none

def insertEntry (x : EncodedEntry) : List EncodedEntry → List EncodedEntry
  | [] => [x]
  | y :: ys =>
    if CompareClocks x.entry.clock y.entry.clock ≤ 0 then x :: y :: ys
    else y :: insertEntry x ys

def sortEntries : List EncodedEntry → List EncodedEntry
  | [] => []
  | x :: xs => insertEntry x (sortEntries xs)

/-- `Log.Values`: decoded, verified, sorted ascending by clock. -/
def LogValues (P : CryptoPrims) (l : LogState) : List EncodedEntry :=
  sortEntries (decodeVerified P l.entries)

/-- `"PUT"` -/
def strPUT : GoStr := [80, 85, 84]
/-- `"DEL"` -/
def strDEL : GoStr := [68, 69, 76]

/-- What the two json stages of `KeyValue.Get`/`All` extract from a payload:
`op` is `payload["op"]` when it is a string, `key` is `payload["key"].(string)`
(empty when missing), `value` is `payload["value"]` (absent means nil). -/
structure KVPayload (V : Type) where
  op : Option GoStr
  key : GoStr
  value : Option V
deriving DecidableEq, Repr

/-- The loop of `KeyValue.Get`, walking entries newest-first: skip entries
that fail to decode, have no string `op`, or a different key; return the
value at a `PUT`, nil at a `DEL`, and keep walking otherwise. -/
def kvGetLoop {V : Type} (dec : GoStr → Option (KVPayload V)) (key : GoStr) :
    List EncodedEntry → Option V
  | [] => none
  | e :: older =>
    match dec e.entry.payload with
    | none => kvGetLoop dec key older
    | some p =>
      match p.op with
      | none => kvGetLoop dec key older
      | some o =>
        if p.key ≠ key then kvGetLoop dec key older
        else if o = strPUT then p.value
        else if o = strDEL then none
        else kvGetLoop dec key older

/-- `KeyValue.Get`: reduce `Log.Values()` in reverse (most recent first). -/
def KeyValueGet {V : Type} (P : CryptoPrims) (dec : GoStr → Option (KVPayload V))
    (l : LogState) (key : GoStr) : Option V :=
  kvGetLoop dec key (LogValues P l).reverse

/-- `DocumentPayload`: struct-unmarshalled operation (zero values on missing
fields). -/
structure DocPayload (V : Type) where
  op : GoStr
  key : GoStr
  value : V
deriving DecidableEq, Repr

/-- Generic map update, replace-on-put (Go map assignment). -/
def alistInsert {α : Type} : List (GoStr × α) → GoStr → α → List (GoStr × α)
  | [], k, v => [(k, v)]
  | (k1, v1) :: rest, k, v =>
    if k1 = k then (k, v) :: rest else (k1, v1) :: alistInsert rest k v

/-- Generic map lookup. -/
def alistFind {α : Type} : List (GoStr × α) → GoStr → Option α
  | [], _ => none
  | (k1, v1) :: rest, k => if k1 = k then some v1 else alistFind rest k

/-- The loop of `Documents.All`, walking entries oldest-first: skip entries
whose payload fails both decodings, skip `DEL` operations (`continue`), and
otherwise assign `results[key] = value`. -/
def docsAllLoop {V : Type} (dec : GoStr → Option (DocPayload V)) :
    List EncodedEntry → List (GoStr × V) → List (GoStr × V)
  | [], acc => acc
  | e :: rest, acc =>
    match dec e.entry.payload with
    | none => docsAllLoop dec rest acc
    | some p =>
      if p.op = strDEL then docsAllLoop dec rest acc
      else docsAllLoop dec rest (alistInsert acc p.key p.value)

/-- `Documents.All`: fold `Log.Values()` in ascending order into a map. -/
def DocumentsAll {V : Type} (P : CryptoPrims) (dec : GoStr → Option (DocPayload V))
    (l : LogState) : List (GoStr × V) :=
  docsAllLoop dec (LogValues P l) []
/-! ## Association-list lemmas -/

theorem alistGet_alistPut (s : Store) (k : GoStr) (v : Bytes) (k1 : GoStr) :
    alistGet (alistPut s k v) k1 = if k1 = k then some v else alistGet s k1 := by
  induction s with
  | nil =>
    by_cases h : k1 = k
    · subst h
      simp [alistPut, alistGet]
    · rw [if_neg h]
      simp only [alistPut, alistGet]
      rw [if_neg (fun hh : k = k1 => h hh.symm)]
  | cons kv rest ih =>
    obtain ⟨k0, v0⟩ := kv
    by_cases h0 : k0 = k
    · subst h0
      by_cases h : k1 = k0
      · subst h
        simp [alistPut, alistGet]
      · rw [if_neg h]
        simp only [alistPut, if_pos rfl, alistGet]
        rw [if_neg (fun hh : k0 = k1 => h hh.symm), if_neg (fun hh : k0 = k1 => h hh.symm)]
    · rw [alistPut, if_neg h0]
      by_cases h1 : k0 = k1
      · subst h1
        rw [if_neg h0]
        simp [alistGet]
      · simp only [alistGet, if_neg h1]
        exact ih

theorem alistPut_idem (s : Store) (k : GoStr) (v : Bytes) :
    alistPut (alistPut s k v) k v = alistPut s k v := by
  induction s with
  | nil => simp [alistPut]
  | cons kv rest ih =>
    obtain ⟨k0, v0⟩ := kv
    by_cases h0 : k0 = k
    · simp [alistPut, h0]
    · simp [alistPut, h0, ih]

theorem alistPut_mem {s : Store} {k : GoStr} {v : Bytes} {kv : GoStr × Bytes}
    (h : kv ∈ alistPut s k v) : kv ∈ s ∨ kv = (k, v) := by
  induction s with
  | nil => simpa [alistPut] using h
  | cons kv0 rest ih =>
    obtain ⟨k0, v0⟩ := kv0
    by_cases h0 : k0 = k
    · rw [alistPut, if_pos h0] at h
      rcases List.mem_cons.mp h with h | h
      · exact Or.inr h
      · exact Or.inl (List.mem_cons_of_mem _ h)
    · rw [alistPut, if_neg h0] at h
      rcases List.mem_cons.mp h with h | h
      · exact Or.inl (h ▸ List.mem_cons_self _ _)
      · rcases ih h with h | h
        · exact Or.inl (List.mem_cons_of_mem _ h)
        · exact Or.inr h

/-- Concrete primitives for evaluating the model on closed inputs: the hash
pipeline is the identity on bytes (collision-free), signing returns a fixed
tag, verification always succeeds. -/
def trivialPrims : CryptoPrims :=
  { sign := fun _ _ => [0], verify := fun _ _ _ => true,
    hashOf := fun bs => bs, cidOf := fun bs => bs }

/-! ## Claim C9 -/

set_option maxRecDepth 10000 in
/-- C9 counterexample: at the `int64`-representable clock times `2^62` and
`-(2^62)` the subtraction `a.Time - b.Time` wraps, so `CompareClocks` returns
a negative result although `a.time - b.time > 0`, and the comparison of the
swapped pair is negative as well — the claimed sign rule and the antisymmetry
`sign(cmp(a,b)) = -sign(cmp(b,a))` both fail in the source. -/
theorem C9_counterexample :
    0 < (⟨[97], 2 ^ 62⟩ : Clock).time - (⟨[97], -(2 ^ 62)⟩ : Clock).time ∧
    CompareClocks ⟨[97], 2 ^ 62⟩ ⟨[97], -(2 ^ 62)⟩ < 0 ∧
    CompareClocks ⟨[97], -(2 ^ 62)⟩ ⟨[97], 2 ^ 62⟩ < 0 := by
  refine ⟨by decide, ?_, ?_⟩ <;> decide

/-- C9 (amended): on clocks whose times stay below `2^62` in magnitude — so
that the `int64` subtraction inside `CompareClocks` cannot overflow —
`CompareClocks(a,b)` has the sign of `a.time − b.time` when the times differ,
is `−1` on equal times with `a.id < b.id`, `+1` on equal times with
`a.id > b.id`, and `0` exactly when both components are equal; on such clocks
the induced relation is transitive and antisymmetric
(`sign(cmp(a,b)) = −sign(cmp(b,a))`), hence a total order.  Without the range
restriction the wraparound refutes each of these, as the counterexample
shows. -/
theorem C9_CompareClocks_amended :
    (∀ a b : Clock, ClockInRange a → ClockInRange b → a.time ≠ b.time →
      (CompareClocks a b).sign = (a.time - b.time).sign) ∧
    (∀ a b : Clock, ClockInRange a → ClockInRange b → a.time = b.time →
      goLt a.id b.id = true → CompareClocks a b = -1) ∧
    (∀ a b : Clock, ClockInRange a → ClockInRange b → a.time = b.time →
      goLt b.id a.id = true → CompareClocks a b = 1) ∧
    (∀ a b : Clock, ClockInRange a → ClockInRange b →
      (CompareClocks a b = 0 ↔ a = b)) ∧
    (∀ a b c : Clock, ClockInRange a → ClockInRange b → ClockInRange c →
      CompareClocks a b < 0 → CompareClocks b c < 0 → CompareClocks a c < 0) ∧
    (∀ a b : Clock, ClockInRange a → ClockInRange b →
      (CompareClocks a b).sign = -(CompareClocks b a).sign) := by
  refine ⟨?_, ?_, ?_, ?_, ?_, ?_⟩
  · intro a b ha hb ht
    rw [CompareClocks_eq_clockCmp ha hb]
    rcases clockCmp_cases a b with ⟨_, he⟩ | ⟨ht2, _, _⟩ | ⟨ht2, _, _⟩ | ⟨ht2, _, _⟩
    · rw [he]
    · exact absurd ht2 ht
    · exact absurd ht2 ht
    · exact absurd ht2 ht
  · intro a b ha hb ht hlt
    rw [CompareClocks_eq_clockCmp ha hb]
    rcases clockCmp_cases a b with ⟨hne, _⟩ | ⟨_, hid, _⟩ | ⟨_, _, he⟩ | ⟨_, hba, _⟩
    · exact absurd ht hne
    · rw [hid, goLt_irrefl] at hlt
      exact absurd hlt (by simp)
    · exact he
    · rw [goLt_asymm hba] at hlt
      exact absurd hlt (by simp)
  · intro a b ha hb ht hba
    rw [CompareClocks_eq_clockCmp ha hb]
    rcases clockCmp_cases a b with ⟨hne, _⟩ | ⟨_, hid, _⟩ | ⟨_, hab, _⟩ | ⟨_, _, he⟩
    · exact absurd ht hne
    · rw [← hid, goLt_irrefl] at hba
      exact absurd hba (by simp)
    · rw [goLt_asymm hab] at hba
      exact absurd hba (by simp)
    · exact he
  · intro a b ha hb
    rw [CompareClocks_eq_clockCmp ha hb]
    exact clockCmp_zero_iff a b
  · intro a b c ha hb hc h1 h2
    rw [CompareClocks_eq_clockCmp ha hb] at h1
    rw [CompareClocks_eq_clockCmp hb hc] at h2
    rw [CompareClocks_eq_clockCmp ha hc]
    exact clockCmp_trans h1 h2
  · intro a b ha hb
    rw [CompareClocks_eq_clockCmp ha hb, CompareClocks_eq_clockCmp hb ha]
    exact clockCmp_sign_antisymm a b

/-- Closed instance of C9 (amended) at concrete in-range clocks. -/
theorem C9_CompareClocks_amended_witness :
    CompareClocks ⟨[97], 1⟩ ⟨[98], 1⟩ = -1 ∧
    CompareClocks ⟨[99], 1⟩ ⟨[98], 1⟩ = 1 ∧
    CompareClocks ⟨[97], 1⟩ ⟨[99], 1⟩ < 0 ∧
    (CompareClocks ⟨[97], 5⟩ ⟨[98], 3⟩).sign = ((5:Int) - 3).sign := by
  refine ⟨?_, ?_, ?_, ?_⟩
  · exact C9_CompareClocks_amended.2.1 ⟨[97], 1⟩ ⟨[98], 1⟩ (by decide) (by decide) rfl
      (by decide)
  · exact C9_CompareClocks_amended.2.2.1 ⟨[99], 1⟩ ⟨[98], 1⟩ (by decide) (by decide) rfl
      (by decide)
  · exact C9_CompareClocks_amended.2.2.2.2.1 ⟨[97], 1⟩ ⟨[98], 1⟩ ⟨[99], 1⟩
      (by decide) (by decide) (by decide) (by decide) (by decide)
  · exact C9_CompareClocks_amended.1 ⟨[97], 5⟩ ⟨[98], 3⟩ (by decide) (by decide) (by decide)

/-! ## Claim C1 -/

/-- C1: a successful `Append(p)` ticks the log clock by exactly one, stamps
the new entry with the ticked clock, sets `next` to `[head.hash]` when a head
existed and to the empty list otherwise, stores the entry bytes under its
hash, and makes the entry the new head; `Append` with an empty payload
errors and leaves the state unchanged. -/
theorem C1_Append_spec (P : CryptoPrims) (put : StoragePut) (l : LogState)
    (payload : GoStr) (l1 : LogState) (e : EncodedEntry)
    (hid : l.clock.id ≠ [])
    (h : Append P put l payload = (l1, some e)) :
    l1.clock.time = l.clock.time + 1 ∧
    e.entry.clock = TickClock l.clock ∧
    e.entry.next = (match l.head with
      | some h0 => [h0.hash]
      | none => []) ∧
    put l.entries e.hash e.bytes = some l1.entries ∧
    l1.head = some e ∧
    (put = memPut → alistGet l1.entries e.hash = some e.bytes) ∧
    Append P put l [] = (l, none) := by
  by_cases hp : payload = []
  · rw [Append, if_pos hp] at h
    exact absurd (congrArg Prod.snd h) (by simp)
  · rw [Append, if_neg hp] at h
    dsimp only at h
    cases hput : put l.entries
        (NewEntry P l.identity l.id payload (TickClock l.clock)
          (match l.head with
            | some h0 => some [h0.hash]
            | none => none) none).hash
        (NewEntry P l.identity l.id payload (TickClock l.clock)
          (match l.head with
            | some h0 => some [h0.hash]
            | none => none) none).bytes with
    | none =>
      rw [hput] at h
      exact absurd (congrArg Prod.snd h) (by simp)
    | some es =>
      rw [hput] at h
      dsimp only at h
      rw [Prod.mk.injEq] at h
      obtain ⟨h1, h2⟩ := h
      rw [Option.some_inj] at h2
      subst h1
      subst h2
      have hclk0 : clockOrDefault (TickClock l.clock) l.identity = TickClock l.clock := by
        rw [clockOrDefault, if_neg]
        exact hid
      have hclk : (NewEntry P l.identity l.id payload (TickClock l.clock)
          (match l.head with
            | some h0 => some [h0.hash]
            | none => none) none).entry.clock = TickClock l.clock := by
        simp [NewEntry, Encode, hclk0]
      have hnext : (NewEntry P l.identity l.id payload (TickClock l.clock)
          (match l.head with
            | some h0 => some [h0.hash]
            | none => none) none).entry.next =
          (match l.head with
            | some h0 => [h0.hash]
            | none => []) := by
        cases l.head <;> simp [NewEntry, Encode, sortStrings, insertStr]
      refine ⟨rfl, hclk, hnext, hput, rfl, ?_, by rw [Append, if_pos rfl]⟩
      intro hmem
      subst hmem
      have hes : es = alistPut l.entries
          (NewEntry P l.identity l.id payload (TickClock l.clock)
            (match l.head with
              | some h0 => some [h0.hash]
              | none => none) none).hash
          (NewEntry P l.identity l.id payload (TickClock l.clock)
            (match l.head with
              | some h0 => some [h0.hash]
              | none => none) none).bytes := by
        have := hput
        simp only [memPut, Option.some_inj] at this
        exact this.symm
      dsimp only
      rw [hes, alistGet_alistPut, if_pos rfl]

/-- Closed instance of C1 at a fresh log over the in-memory backend. -/
theorem C1_Append_spec_witness :
    ((Append trivialPrims memPut (NewLogState [108] ⟨[97], [], []⟩) [112]).1).clock.time =
      (NewLogState [108] ⟨[97], [], []⟩).clock.time + 1 := by
  have hs : (Append trivialPrims memPut (NewLogState [108] ⟨[97], [], []⟩) [112]).2.isSome :=
    by decide
  have happ : Append trivialPrims memPut (NewLogState [108] ⟨[97], [], []⟩) [112] =
      ((Append trivialPrims memPut (NewLogState [108] ⟨[97], [], []⟩) [112]).1,
        some ((Append trivialPrims memPut (NewLogState [108] ⟨[97], [], []⟩) [112]).2.get hs)) := by
    rw [Option.some_get]
  exact (C1_Append_spec trivialPrims memPut (NewLogState [108] ⟨[97], [], []⟩) [112] _ _
    (by decide) happ).1
/-! ## Claim C10 -/

/-- C10: `Clear()` empties the entry storage and nulls the head but leaves
the clock untouched; an `Append` right after `Clear()` therefore produces an
entry whose `clock.time` is one greater than the pre-`Clear` time — not 1
(whenever the pre-`Clear` time was non-zero). -/
theorem C10_Clear_keeps_clock (P : CryptoPrims) (l : LogState) (payload : GoStr)
    (hp : payload ≠ []) (hid : l.clock.id ≠ []) :
    (ClearLog l).clock = l.clock ∧
    (ClearLog l).head = none ∧
    (ClearLog l).entries = [] ∧
    (Append P memPut (ClearLog l) payload).2.isSome = true ∧
    (∀ e, (Append P memPut (ClearLog l) payload).2 = some e →
      e.entry.clock.time = l.clock.time + 1 ∧ (l.clock.time ≠ 0 → e.entry.clock.time ≠ 1)) := by
  refine ⟨rfl, rfl, rfl, ?_, ?_⟩
  · rw [Append, if_neg hp]
    rfl
  · intro e he
    rw [Append, if_neg hp] at he
    dsimp only [ClearLog, memPut] at he
    rw [Option.some_inj] at he
    have hclk0 : clockOrDefault (TickClock l.clock) l.identity = TickClock l.clock := by
      rw [clockOrDefault, if_neg]
      exact hid
    have hclk : e.entry.clock = TickClock l.clock := by
      rw [← he]
      simp [NewEntry, Encode, hclk0]
    rw [hclk]
    refine ⟨rfl, ?_⟩
    intro h0 h1
    have h2 : l.clock.time + 1 = 1 := h1
    exact h0 (by omega)

/-- Closed instance of C10 at a log whose clock has already reached 3. -/
theorem C10_Clear_keeps_clock_witness :
    (ClearLog ⟨[108], ⟨[97], [], []⟩, ⟨[97], 3⟩, none, []⟩).clock = ⟨[97], 3⟩ ∧
    (ClearLog ⟨[108], ⟨[97], [], []⟩, ⟨[97], 3⟩, none, []⟩).head = none ∧
    (ClearLog ⟨[108], ⟨[97], [], []⟩, ⟨[97], 3⟩, none, []⟩).entries = [] ∧
    (Append trivialPrims memPut
      (ClearLog ⟨[108], ⟨[97], [], []⟩, ⟨[97], 3⟩, none, []⟩) [112]).2.isSome = true ∧
    (∀ e, (Append trivialPrims memPut
        (ClearLog ⟨[108], ⟨[97], [], []⟩, ⟨[97], 3⟩, none, []⟩) [112]).2 = some e →
      e.entry.clock.time = (3:Int) + 1 ∧ ((3:Int) ≠ 0 → e.entry.clock.time ≠ 1)) :=
  C10_Clear_keeps_clock trivialPrims ⟨[108], ⟨[97], [], []⟩, ⟨[97], 3⟩, none, []⟩ [112]
    (by decide) (by decide)

/-! ## Claim C2 -/

/-- C2 counterexample: over a storage backend whose `Put` fails, `Append`
returns an error but the clock has already been ticked — the claim that a
failed `Append` leaves both `head` and `clock` unchanged is false on the
code (`l.Clock = TickClock(l.Clock)` precedes `l.Entries.Put`). -/
theorem C2_counterexample :
    (Append trivialPrims failPut (NewLogState [108] ⟨[97], [], []⟩) [112]).2 = none ∧
    (Append trivialPrims failPut (NewLogState [108] ⟨[97], [], []⟩) [112]).1.clock ≠
      (NewLogState [108] ⟨[97], [], []⟩).clock := by
  constructor
  · decide
  · decide

/-- C2 (amended): when `Append` returns an error, `head` and the stored
entries are unchanged; the clock is unchanged on the empty-payload error,
but on a storage `Put` failure it has already been ticked. -/
theorem C2_Append_failure_amended (P : CryptoPrims) (put : StoragePut) (l : LogState)
    (payload : GoStr) (l1 : LogState)
    (h : Append P put l payload = (l1, none)) :
    l1.head = l.head ∧ l1.entries = l.entries ∧
    (payload = [] → l1 = l) ∧
    (payload ≠ [] → l1.clock = TickClock l.clock) := by
  by_cases hp : payload = []
  · rw [Append, if_pos hp] at h
    rw [Prod.mk.injEq] at h
    obtain ⟨h1, _⟩ := h
    subst h1
    exact ⟨rfl, rfl, fun _ => rfl, fun hne => absurd hp hne⟩
  · rw [Append, if_neg hp] at h
    dsimp only at h
    cases hput : put l.entries
        (NewEntry P l.identity l.id payload (TickClock l.clock)
          (match l.head with
            | some h0 => some [h0.hash]
            | none => none) none).hash
        (NewEntry P l.identity l.id payload (TickClock l.clock)
          (match l.head with
            | some h0 => some [h0.hash]
            | none => none) none).bytes with
    | none =>
      rw [hput] at h
      rw [Prod.mk.injEq] at h
      obtain ⟨h1, _⟩ := h
      subst h1
      exact ⟨rfl, rfl, fun hh => absurd hh hp, fun _ => rfl⟩
    | some es =>
      rw [hput] at h
      exact absurd (congrArg Prod.snd h) (by simp)

/-- Closed instance of C2 (amended) at the failing backend. -/
theorem C2_Append_failure_amended_witness :
    (Append trivialPrims failPut (NewLogState [108] ⟨[97], [], []⟩) [112]).1.head =
      (NewLogState [108] ⟨[97], [], []⟩).head ∧
    (Append trivialPrims failPut (NewLogState [108] ⟨[97], [], []⟩) [112]).1.entries =
      (NewLogState [108] ⟨[97], [], []⟩).entries ∧
    ([112] = ([] : GoStr) →
      (Append trivialPrims failPut (NewLogState [108] ⟨[97], [], []⟩) [112]).1 =
        NewLogState [108] ⟨[97], [], []⟩) ∧
    ([112] ≠ ([] : GoStr) →
      (Append trivialPrims failPut (NewLogState [108] ⟨[97], [], []⟩) [112]).1.clock =
        TickClock (NewLogState [108] ⟨[97], [], []⟩).clock) :=
  C2_Append_failure_amended trivialPrims failPut (NewLogState [108] ⟨[97], [], []⟩) [112] _
    (by decide)

/-! ## Claim C3 -/

/-- C3: `JoinEntry` rejects every entry whose id differs from the log id, and
is idempotent: joining an accepted entry a second time (with a fresh
`processed` set) leaves the stored entries and the head unchanged. -/
theorem C3_JoinEntry_reject_idempotent :
    (∀ (P : CryptoPrims) (put : StoragePut) (l : LogState) (e : EncodedEntry)
        (proc : List GoStr), e.entry.id ≠ l.id → JoinEntry P put l e proc = none) ∧
    (∀ (P : CryptoPrims) (l : LogState) (e : EncodedEntry) (l1 : LogState)
        (proc1 : List GoStr), JoinEntry P memPut l e [] = some (l1, proc1) →
      ∃ l2 proc2, JoinEntry P memPut l1 e [] = some (l2, proc2) ∧
        l2.entries = l1.entries ∧ l2.head = l1.head) := by
  constructor
  · intro P put l e proc hne
    rw [JoinEntry, if_pos hne]
  · intro P l e l1 proc1 h
    rw [JoinEntry] at h
    by_cases hidok : e.entry.id ≠ l.id
    · rw [if_pos hidok] at h
      exact absurd h (by simp)
    rw [if_neg hidok] at h
    by_cases hver : ¬ VerifyEntrySignatureByEntryKey P e
    · rw [if_pos hver] at h
      exact absurd h (by simp)
    rw [if_neg hver] at h
    rw [if_neg (by simp : ¬ e.hash ∈ ([] : List GoStr))] at h
    simp only [memPut] at h
    rw [Option.some_inj, Prod.mk.injEq] at h
    obtain ⟨h1, _⟩ := h
    have hid1 : l1.id = l.id := by rw [← h1]
    have hent1 : l1.entries = alistPut l.entries e.hash e.bytes := by rw [← h1]
    have hhead1 : l1.head = (match l.head with
        | none => some e
        | some h0 =>
          if CompareClocks e.entry.clock h0.entry.clock > 0 then some e else some h0) := by
      rw [← h1]
    have hsecond : JoinEntry P memPut l1 e [] =
        some ({ l1 with entries := alistPut l1.entries e.hash e.bytes, head := (match l1.head with | none => some e | some h0 => if CompareClocks e.entry.clock h0.entry.clock > 0 then some e else some h0 : Option EncodedEntry) }, [e.hash]) := by
      rw [JoinEntry, if_neg (by rw [hid1]; exact hidok), if_neg hver,
        if_neg (by simp : ¬ e.hash ∈ ([] : List GoStr))]
      rfl
    refine ⟨_, _, hsecond, ?_, ?_⟩
    · dsimp only
      rw [hent1, alistPut_idem]
    · dsimp only
      rw [hhead1]
      cases hh : l.head with
      | none =>
        dsimp only
        rw [if_neg (by rw [CompareClocks_self]; omega)]
      | some h0 =>
        dsimp only
        by_cases hcmp : CompareClocks e.entry.clock h0.entry.clock > 0
        · rw [if_pos hcmp]
          dsimp only
          rw [if_neg (by rw [CompareClocks_self]; omega)]
        · rw [if_neg hcmp]
          dsimp only
          rw [if_neg hcmp]

/-- Closed instance of C3: rejection of a foreign-id entry, and the second
join of an accepted entry. -/
theorem C3_JoinEntry_reject_idempotent_witness :
    JoinEntry trivialPrims memPut (NewLogState [108] ⟨[97], [], []⟩)
      (Encode trivialPrims ⟨[109], [112], [], [], ⟨[98], 5⟩, 2, [], [], []⟩) [] = none ∧
    (∃ l2 proc2, JoinEntry trivialPrims memPut
        ((JoinEntry trivialPrims memPut (NewLogState [108] ⟨[97], [], []⟩)
          (Encode trivialPrims ⟨[108], [112], [], [], ⟨[98], 5⟩, 2, [], [], []⟩) []).get
            (by decide)).1
        (Encode trivialPrims ⟨[108], [112], [], [], ⟨[98], 5⟩, 2, [], [], []⟩) [] =
          some (l2, proc2) ∧
      l2.entries = ((JoinEntry trivialPrims memPut (NewLogState [108] ⟨[97], [], []⟩)
          (Encode trivialPrims ⟨[108], [112], [], [], ⟨[98], 5⟩, 2, [], [], []⟩) []).get
            (by decide)).1.entries ∧
      l2.head = ((JoinEntry trivialPrims memPut (NewLogState [108] ⟨[97], [], []⟩)
          (Encode trivialPrims ⟨[108], [112], [], [], ⟨[98], 5⟩, 2, [], [], []⟩) []).get
            (by decide)).1.head) := by
  constructor
  · exact C3_JoinEntry_reject_idempotent.1 trivialPrims memPut
      (NewLogState [108] ⟨[97], [], []⟩)
      (Encode trivialPrims ⟨[109], [112], [], [], ⟨[98], 5⟩, 2, [], [], []⟩) [] (by decide)
  · exact C3_JoinEntry_reject_idempotent.2 trivialPrims
      (NewLogState [108] ⟨[97], [], []⟩)
      (Encode trivialPrims ⟨[108], [112], [], [], ⟨[98], 5⟩, 2, [], [], []⟩) _ _
      (Option.some_get (by decide)).symm
/-! ## Claim C8 -/

/-- C8: for every well-formed entry `e`, `Decode(Encode(e).Bytes)` succeeds
and returns an encoded entry whose fields all equal those of `e` and whose
bytes, derived hash and CID equal those computed by `Encode(e)`. -/
theorem C8_decode_encode_roundtrip (P : CryptoPrims) (e : Entry) (wf : WfEntry e) :
    Decode P (Encode P e).bytes = some (Encode P e) := by
  show Decode P (encodeEntryBytes e) = some (Encode P e)
  rw [Decode, DecodeBytes_encodeEntryBytes e wf]
  rfl

/-- Closed instance of C8 at a small concrete entry. -/
theorem C8_decode_encode_roundtrip_witness :
    Decode trivialPrims
      (Encode trivialPrims ⟨[108], [112], [[5]], [], ⟨[97], 1⟩, 2, [107], [105], [115]⟩).bytes =
    some (Encode trivialPrims ⟨[108], [112], [[5]], [], ⟨[97], 1⟩, 2, [107], [105], [115]⟩) :=
  C8_decode_encode_roundtrip trivialPrims
    ⟨[108], [112], [[5]], [], ⟨[97], 1⟩, 2, [107], [105], [115]⟩ (by decide)

/-! ## Claim C7

The two-argument `VerifyEntrySignature(keystore, entry)` the current `Log`
calls is absent from the sources; the in-source definition
(`src/oplog/entry.go:93`) takes the verifying replica's identity and derives
the public key from `identity.PublicKey`, not from the entry's `key` field.
Concrete primitives modelling ECDSA: a signature is valid iff it is the
writer's tag and the public key is the writer's. -/

/-- ECDSA stand-in for C7: `[7]` is a valid signature exactly under the
writer's 64-byte public key (`0xaa` repeated). -/
def ecdsaModel : CryptoPrims :=
  { sign := fun _ _ => [7],
    verify := fun pk _ sg => decide (pk = List.replicate 64 170 ∧ sg = [7]),
    hashOf := fun bs => bs, cidOf := fun bs => bs }

/-- The writer: 128 hex digits `a` decode to 64 bytes `0xaa`. -/
def writerIdent : Identity := ⟨[119], List.replicate 128 97, [104]⟩

/-- A different replica: 128 hex digits `b` decode to 64 bytes `0xbb`. -/
def replicaIdent : Identity := ⟨[114], List.replicate 128 98, [105]⟩

/-- An entry signed by the writer (its `key` field carries the writer's
public key and `[7]` verifies under that key). -/
def writerEntry : EncodedEntry :=
  Encode ecdsaModel ⟨[108], [112], [], [], ⟨[119], 1⟩, 2, List.replicate 128 97, [104], [7]⟩

/-- C7: the spec-modelled verification (public key from the entry's own `key`
field) accepts the writer's entry, and the in-source `VerifyEntrySignature`
accepts it only when the verifying identity *is* the writer: on any other
replica it reconstructs the wrong key and rejects a valid entry. -/
theorem C7_verify_uses_replica_identity :
    VerifyEntrySignatureByEntryKey ecdsaModel writerEntry = true ∧
    VerifyEntrySignature ecdsaModel writerIdent writerEntry = true ∧
    VerifyEntrySignature ecdsaModel replicaIdent writerEntry = false := by
  refine ⟨?_, ?_, ?_⟩ <;> decide
/-! ## Claim C5 -/

/-- An entry "hits" a key for `KeyValue.Get`: its payload decodes, carries a
string `op` that is `PUT` or `DEL`, and its key matches — exactly the
conditions under which the loop stops at it. -/
def kvHit {V : Type} (dec : GoStr → Option (KVPayload V)) (e : EncodedEntry)
    (key : GoStr) : Prop :=
  ∃ p o, dec e.entry.payload = some p ∧ p.op = some o ∧ p.key = key ∧
    (o = strPUT ∨ o = strDEL)

theorem kvGetLoop_skip {V : Type} (dec : GoStr → Option (KVPayload V)) (key : GoStr)
    (xs rest : List EncodedEntry) (h : ∀ x ∈ xs, ¬ kvHit dec x key) :
    kvGetLoop dec key (xs ++ rest) = kvGetLoop dec key rest := by
  induction xs with
  | nil => rfl
  | cons e tail ih =>
    have htail := ih (fun x hx => h x (List.mem_cons_of_mem _ hx))
    have he := h e (List.mem_cons_self _ _)
    rw [List.cons_append]
    simp only [kvGetLoop]
    cases hdec : dec e.entry.payload with
    | none => exact htail
    | some p =>
      dsimp only
      cases hop : p.op with
      | none => exact htail
      | some o =>
        dsimp only
        by_cases hkey : p.key ≠ key
        · rw [if_pos hkey]
          exact htail
        · rw [if_neg hkey]
          by_cases hput : o = strPUT
          · exact absurd ⟨p, o, hdec, hop, not_not.mp hkey, Or.inl hput⟩ he
          · rw [if_neg hput]
            by_cases hdel : o = strDEL
            · exact absurd ⟨p, o, hdec, hop, not_not.mp hkey, Or.inr hdel⟩ he
            · rw [if_neg hdel]
              exact htail

theorem kvGetLoop_cons_put {V : Type} (dec : GoStr → Option (KVPayload V)) (key : GoStr)
    (e : EncodedEntry) (rest : List EncodedEntry) (p : KVPayload V)
    (hdec : dec e.entry.payload = some p) (hop : p.op = some strPUT) (hkey : p.key = key) :
    kvGetLoop dec key (e :: rest) = p.value := by
  simp only [kvGetLoop]
  rw [hdec]
  dsimp only
  rw [hop]
  dsimp only
  rw [if_neg (by simp [hkey]), if_pos rfl]

theorem kvGetLoop_cons_del {V : Type} (dec : GoStr → Option (KVPayload V)) (key : GoStr)
    (e : EncodedEntry) (rest : List EncodedEntry) (p : KVPayload V)
    (hdec : dec e.entry.payload = some p) (hop : p.op = some strDEL) (hkey : p.key = key) :
    kvGetLoop dec key (e :: rest) = none := by
  simp only [kvGetLoop]
  rw [hdec]
  dsimp only
  rw [hop]
  dsimp only
  rw [if_neg (by simp [hkey]), if_neg (by decide), if_pos rfl]

/-- C5: `KeyValue.Get(key)` reduces the log's values newest-first and
returns the value of the first `PUT` matching `key`; a `DEL` met first gives
nil; no match gives nil.  `pre ++ e :: post` decomposes the ascending values
list, so `post` holds the entries newer than `e`. -/
theorem C5_KeyValueGet_spec {V : Type} (P : CryptoPrims)
    (dec : GoStr → Option (KVPayload V)) (l : LogState) (key : GoStr) :
    (∀ pre e post p, LogValues P l = pre ++ e :: post →
      dec e.entry.payload = some p → p.op = some strPUT → p.key = key →
      (∀ e2 ∈ post, ¬ kvHit dec e2 key) →
      KeyValueGet P dec l key = p.value) ∧
    (∀ pre e post p, LogValues P l = pre ++ e :: post →
      dec e.entry.payload = some p → p.op = some strDEL → p.key = key →
      (∀ e2 ∈ post, ¬ kvHit dec e2 key) →
      KeyValueGet P dec l key = none) ∧
    ((∀ e2 ∈ LogValues P l, ¬ kvHit dec e2 key) → KeyValueGet P dec l key = none) := by
  refine ⟨?_, ?_, ?_⟩
  · intro pre e post p hvals hdec hop hkey hnohit
    rw [KeyValueGet, hvals, List.reverse_append, List.reverse_cons, List.append_assoc,
      List.singleton_append,
      kvGetLoop_skip dec key post.reverse _ (fun x hx => hnohit x (List.mem_reverse.mp hx)),
      kvGetLoop_cons_put dec key e pre.reverse p hdec hop hkey]
  · intro pre e post p hvals hdec hop hkey hnohit
    rw [KeyValueGet, hvals, List.reverse_append, List.reverse_cons, List.append_assoc,
      List.singleton_append,
      kvGetLoop_skip dec key post.reverse _ (fun x hx => hnohit x (List.mem_reverse.mp hx)),
      kvGetLoop_cons_del dec key e pre.reverse p hdec hop hkey]
  · intro hnohit
    rw [KeyValueGet, show (LogValues P l).reverse = (LogValues P l).reverse ++ [] from
      (List.append_nil _).symm,
      kvGetLoop_skip dec key _ [] (fun x hx => hnohit x (List.mem_reverse.mp hx))]
    rfl

/-! C5 witness: the S1 scenario (`Put key1 value1; Put key2 value2;
Get key1 → value1; Del key1; Get key1 → nil`), with the payloads exactly as
`AddOperation` stores them (a JSON-marshalled string of the JSON-marshalled
operation map, map keys alphabetical) and a decoder giving `encoding/json`'s
result on those three payloads. -/

def asciiStr (s : String) : GoStr := s.data.map Char.toNat

def payPut1 : GoStr :=
  asciiStr "\"\x7b\\\"key\\\":\\\"key1\\\",\\\"op\\\":\\\"PUT\\\",\\\"value\\\":\\\"value1\\\"\x7d\""
def payPut2 : GoStr :=
  asciiStr "\"\x7b\\\"key\\\":\\\"key2\\\",\\\"op\\\":\\\"PUT\\\",\\\"value\\\":\\\"value2\\\"\x7d\""
def payDel1 : GoStr :=
  asciiStr "\"\x7b\\\"key\\\":\\\"key1\\\",\\\"op\\\":\\\"DEL\\\"\x7d\""

/-- `encoding/json`'s two-stage decoding restricted to the three payloads the
scenario stores. -/
def kvDec0 (pl : GoStr) : Option (KVPayload Nat) :=
  if pl = payPut1 then some ⟨some strPUT, asciiStr "key1", some 1⟩
  else if pl = payPut2 then some ⟨some strPUT, asciiStr "key2", some 2⟩
  else if pl = payDel1 then some ⟨some strDEL, asciiStr "key1", none⟩
  else none

def kvIdent : Identity := ⟨[97], [], []⟩

def kvLogA : LogState :=
  (Append trivialPrims memPut
    ((Append trivialPrims memPut (NewLogState [116] kvIdent) payPut1).1) payPut2).1

def kvLogB : LogState := (Append trivialPrims memPut kvLogA payDel1).1

def kvE1 : EncodedEntry := NewEntry trivialPrims kvIdent [116] payPut1 ⟨[97], 1⟩ none none
def kvE2 : EncodedEntry :=
  NewEntry trivialPrims kvIdent [116] payPut2 ⟨[97], 2⟩ (some [kvE1.hash]) none
def kvE3 : EncodedEntry :=
  NewEntry trivialPrims kvIdent [116] payDel1 ⟨[97], 3⟩ (some [kvE2.hash]) none

set_option maxRecDepth 100000 in
/-- Closed instance of C5 on the S1 scenario. -/
theorem C5_KeyValueGet_spec_witness :
    KeyValueGet trivialPrims kvDec0 kvLogA (asciiStr "key1") = some 1 ∧
    KeyValueGet trivialPrims kvDec0 kvLogB (asciiStr "key1") = none := by
  constructor
  · refine (C5_KeyValueGet_spec trivialPrims kvDec0 kvLogA (asciiStr "key1")).1
      [] kvE1 [kvE2] ⟨some strPUT, asciiStr "key1", some 1⟩ (by decide) (by decide) rfl rfl ?_
    intro e2 he2
    rw [List.mem_singleton] at he2
    subst he2
    rintro ⟨p, o, hdec2, hop2, hkey2, ho⟩
    have hd : kvDec0 kvE2.entry.payload = some ⟨some strPUT, asciiStr "key2", some 2⟩ := by
      decide
    rw [hd, Option.some_inj] at hdec2
    subst hdec2
    exact absurd hkey2 (by decide)
  · refine (C5_KeyValueGet_spec trivialPrims kvDec0 kvLogB (asciiStr "key1")).2.1
      [kvE1, kvE2] kvE3 [] ⟨some strDEL, asciiStr "key1", none⟩ (by decide) (by decide) rfl rfl ?_
    intro e2 he2
    exact absurd he2 (by simp)
/-! ## Claim C6

`Documents.All` walks `Log.Values()` in ascending order and, per its own
"Skip deleted documents" comment, is meant to leave deleted documents out;
the code however only `continue`s over the `DEL` entry itself and never
removes the previously stored document.  The S3 scenario evaluates the code
on the failing input. -/

def payDoc1 : GoStr :=
  asciiStr "\"\x7b\\\"op\\\":\\\"PUT\\\",\\\"key\\\":\\\"doc1\\\",\\\"value\\\":\x7b\\\"_id\\\":\\\"doc1\\\"\x7d\x7d\""
def payDoc2 : GoStr :=
  asciiStr "\"\x7b\\\"op\\\":\\\"PUT\\\",\\\"key\\\":\\\"doc2\\\",\\\"value\\\":\x7b\\\"_id\\\":\\\"doc2\\\"\x7d\x7d\""
def payDoc3 : GoStr :=
  asciiStr "\"\x7b\\\"op\\\":\\\"PUT\\\",\\\"key\\\":\\\"doc3\\\",\\\"value\\\":\x7b\\\"_id\\\":\\\"doc3\\\"\x7d\x7d\""
def payDocDel2 : GoStr :=
  asciiStr "\"\x7b\\\"key\\\":\\\"doc2\\\",\\\"op\\\":\\\"DEL\\\"\x7d\""

/-- The direct-or-fallback payload decoding of `Documents.All`, restricted to
the four payloads of the S3 scenario (`Value` is nil on the delete). -/
def docDec0 (pl : GoStr) : Option (DocPayload (Option Nat)) :=
  if pl = payDoc1 then some ⟨strPUT, asciiStr "doc1", some 1⟩
  else if pl = payDoc2 then some ⟨strPUT, asciiStr "doc2", some 2⟩
  else if pl = payDoc3 then some ⟨strPUT, asciiStr "doc3", some 3⟩
  else if pl = payDocDel2 then some ⟨strDEL, asciiStr "doc2", none⟩
  else none

def docLog : LogState :=
  (Append trivialPrims memPut
    ((Append trivialPrims memPut
      ((Append trivialPrims memPut
        ((Append trivialPrims memPut (NewLogState [100] kvIdent) payDoc1).1)
        payDoc2).1)
      payDoc3).1)
    payDocDel2).1

set_option maxRecDepth 200000 in
/-- C6, code behaviour at the failing input: after `Put(doc1)`, `Put(doc2)`,
`Put(doc3)`, `Del("doc2")`, `Documents.All` still contains `doc2` (mapped to
its last put value) and has three entries, not two — the `DEL` entry is
skipped but the stored document is never removed. -/
theorem C6_del_not_removed :
    alistFind (DocumentsAll trivialPrims docDec0 docLog) (asciiStr "doc2") = some (some 2) ∧
    (DocumentsAll trivialPrims docDec0 docLog).length = 3 := by
  constructor
  · decide
  · decide
/-! ## Claim C4 -/

/-- An `EncodedEntry` as actually produced by `Encode`/`Decode`: its bytes
are the canonical encoding of its record, its hash/CID derive from those
bytes, and the record is a representable Go value. -/
def Genuine (P : CryptoPrims) (e : EncodedEntry) : Prop :=
  e.bytes = encodeEntryBytes e.entry ∧ WfEntry e.entry ∧
  e.hash = P.hashOf e.bytes ∧ e.cid = P.cidOf e.bytes

theorem Decode_genuine (P : CryptoPrims) (e : EncodedEntry) (h : Genuine P e) :
    Decode P e.bytes = some e := by
  obtain ⟨ent, bs, cd, hsh⟩ := e
  obtain ⟨hb, hwf, hh, hc⟩ := h
  dsimp only at hb hwf hh hc
  subst hb
  subst hh
  subst hc
  rw [Decode, DecodeBytes_encodeEntryBytes ent hwf]
  rfl

/-- The property claim C4 asserts of a log state: the head exists and every
stored entry, as decoded, is at most the head by clock, with the entry hash
breaking exact clock ties. -/
def HeadIsMax (P : CryptoPrims) (l : LogState) : Prop :=
  ∃ h, l.head = some h ∧ ∀ kv ∈ l.entries, ∀ d, Decode P kv.2 = some d →
    CompareClocks d.entry.clock h.entry.clock < 0 ∨
    (CompareClocks d.entry.clock h.entry.clock = 0 ∧ goLe d.hash h.hash = true)

/-- A remote writer's genuine entry with clock `([98], 5)` on the same log id. -/
def cexEB : EncodedEntry :=
  Encode trivialPrims ⟨[108], [112], [], [], ⟨[98], 5⟩, 2, [], [], []⟩

/-- The state after successfully joining the remote entry and then appending
locally: the append ticks the local clock `([97], 0)` to `([97], 1)` and sets
the head to the new entry unconditionally. -/
def cexFinal : LogState :=
  (runOps trivialPrims (NewLogState [108] kvIdent)
    [LogOp.join cexEB, LogOp.append [113]]).get (by decide)

set_option maxRecDepth 200000 in
/-- C4 counterexample: after the successful sequence `JoinEntry(remote with
clock ([98],5)); Append(p)`, the head is the appended entry with clock
`([97],1)` while the stored remote entry has the strictly greater clock —
the head is not the maximum-clock stored entry. -/
theorem C4_counterexample :
    (runOps trivialPrims (NewLogState [108] kvIdent)
      [LogOp.join cexEB, LogOp.append [113]]).isSome = true ∧
    ¬ HeadIsMax trivialPrims cexFinal := by
  refine ⟨by decide, ?_⟩
  rintro ⟨h, hh, hall⟩
  have hhead : cexFinal.head =
      some (NewEntry trivialPrims kvIdent [108] [113] ⟨[97], 1⟩ (some [cexEB.hash]) none) := by
    decide
  rw [hhead, Option.some_inj] at hh
  subst hh
  have hmem : (cexEB.hash, cexEB.bytes) ∈ cexFinal.entries := by decide
  have hdec : Decode trivialPrims cexEB.bytes = some cexEB := by decide
  have hc := hall _ hmem _ hdec
  revert hc
  decide
/-- The storage/head invariant the amended C4 maintains: every stored pair is
keyed by the hash of its bytes; a head is hash-keyed and stored; an empty
head means empty storage. -/
def LogInv (P : CryptoPrims) (l : LogState) : Prop :=
  (∀ kv ∈ l.entries, kv.1 = P.hashOf kv.2) ∧
  (∀ h, l.head = some h →
    h.hash = P.hashOf h.bytes ∧ alistGet l.entries h.hash = some h.bytes) ∧
  (l.head = none → l.entries = [])

/-- Every stored entry decodes to at most the head's clock. -/
def HeadUB (P : CryptoPrims) (l : LogState) : Prop :=
  ∀ h, l.head = some h → ∀ kv ∈ l.entries, ∀ d, Decode P kv.2 = some d →
    CompareClocks d.entry.clock h.entry.clock ≤ 0

theorem NewEntry_hash (P : CryptoPrims) (ident : Identity) (id payload : GoStr)
    (clock : Clock) (next refs : Option (List GoStr)) :
    (NewEntry P ident id payload clock next refs).hash =
      P.hashOf (NewEntry P ident id payload clock next refs).bytes := by
  simp [NewEntry, Encode]

theorem applyOp_inv (P : CryptoPrims) (l l1 : LogState) (op : LogOp)
    (hinj : ∀ b1 b2, P.hashOf b1 = P.hashOf b2 → b1 = b2)
    (hjoin : ∀ e, op = LogOp.join e → e.hash = P.hashOf e.bytes)
    (hl : LogInv P l) (h : applyOp P l op = some l1) :
    LogInv P l1 ∧ (∃ hd, l1.head = some hd) := by
  obtain ⟨hi1, hi2, hi3⟩ := hl
  cases op with
  | append p =>
    rw [applyOp] at h
    by_cases hp : p = []
    · rw [Append, if_pos hp] at h
      exact absurd h (by simp)
    · rw [Append, if_neg hp] at h
      dsimp only [memPut] at h
      rw [Option.some_inj] at h
      subst h
      set E := NewEntry P l.identity l.id p (TickClock l.clock)
        (match l.head with
          | some h0 => some [h0.hash]
          | none => none) none with hE
      refine ⟨⟨?_, ?_, ?_⟩, ⟨E, rfl⟩⟩
      · intro kv hkv
        rcases alistPut_mem hkv with hkv | hkv
        · exact hi1 kv hkv
        · subst hkv
          exact NewEntry_hash P l.identity l.id p (TickClock l.clock) _ none
      · intro hd hhd
        rw [Option.some_inj] at hhd
        subst hhd
        refine ⟨NewEntry_hash P l.identity l.id p (TickClock l.clock) _ none, ?_⟩
        dsimp only
        rw [alistGet_alistPut, if_pos rfl]
      · intro hh
        exact absurd hh (by simp)
  | join e =>
    rw [applyOp, Option.map_eq_some'] at h
    obtain ⟨pair, hje, hl1⟩ := h
    rw [JoinEntry] at hje
    by_cases hidok : e.entry.id ≠ l.id
    · rw [if_pos hidok] at hje
      exact absurd hje (by simp)
    rw [if_neg hidok] at hje
    by_cases hver : ¬ VerifyEntrySignatureByEntryKey P e
    · rw [if_pos hver] at hje
      exact absurd hje (by simp)
    rw [if_neg hver] at hje
    rw [if_neg (by simp : ¬ e.hash ∈ ([] : List GoStr))] at hje
    simp only [memPut] at hje
    rw [Option.some_inj] at hje
    have hpair1 : pair.1 = { l with entries := alistPut l.entries e.hash e.bytes, head := (match l.head with | none => some e | some h0 => if CompareClocks e.entry.clock h0.entry.clock > 0 then some e else some h0 : Option EncodedEntry) } := by
      rw [← hje]
    rw [hpair1] at hl1
    subst hl1
    have hghash : e.hash = P.hashOf e.bytes := hjoin e rfl
    refine ⟨⟨?_, ?_, ?_⟩, ?_⟩
    · intro kv hkv
      rcases alistPut_mem hkv with hkv | hkv
      · exact hi1 kv hkv
      · subst hkv
        exact hghash
    · intro hd hhd
      dsimp only at hhd ⊢
      cases hlh : l.head with
      | none =>
        rw [hlh] at hhd
        dsimp only at hhd
        rw [Option.some_inj] at hhd
        subst hhd
        refine ⟨hghash, ?_⟩
        rw [alistGet_alistPut, if_pos rfl]
      | some h0 =>
        rw [hlh] at hhd
        dsimp only at hhd
        by_cases hcmp : CompareClocks e.entry.clock h0.entry.clock > 0
        · rw [if_pos hcmp, Option.some_inj] at hhd
          subst hhd
          refine ⟨hghash, ?_⟩
          rw [alistGet_alistPut, if_pos rfl]
        · rw [if_neg hcmp, Option.some_inj] at hhd
          subst hhd
          obtain ⟨hh1, hh2⟩ := hi2 h0 (by rw [hlh])
          refine ⟨hh1, ?_⟩
          rw [alistGet_alistPut]
          by_cases hkh : h0.hash = e.hash
          · rw [if_pos hkh]
            have hbe : h0.bytes = e.bytes := by
              apply hinj
              rw [← hh1, ← hghash, hkh]
            rw [hbe]
          · rw [if_neg hkh]
            exact hh2
    · intro hh
      dsimp only at hh
      cases hlh : l.head with
      | none =>
        rw [hlh] at hh
        exact absurd hh (by simp)
      | some h0 =>
        rw [hlh] at hh
        dsimp only at hh
        by_cases hcmp : CompareClocks e.entry.clock h0.entry.clock > 0
        · rw [if_pos hcmp] at hh
          exact absurd hh (by simp)
        · rw [if_neg hcmp] at hh
          exact absurd hh (by simp)
    · dsimp only
      cases hlh : l.head with
      | none => exact ⟨e, rfl⟩
      | some h0 =>
        dsimp only
        by_cases hcmp : CompareClocks e.entry.clock h0.entry.clock > 0
        · rw [if_pos hcmp]
          exact ⟨e, rfl⟩
        · rw [if_neg hcmp]
          exact ⟨h0, rfl⟩

theorem runOps_inv (P : CryptoPrims) (ops : List LogOp) (l lf : LogState)
    (hinj : ∀ b1 b2, P.hashOf b1 = P.hashOf b2 → b1 = b2)
    (hjoins : ∀ e, LogOp.join e ∈ ops → e.hash = P.hashOf e.bytes)
    (hl : LogInv P l) (h : runOps P l ops = some lf) :
    LogInv P lf ∧ (ops = [] ∧ lf = l ∨ ∃ hd, lf.head = some hd) := by
  induction ops generalizing l with
  | nil =>
    rw [runOps, Option.some_inj] at h
    subst h
    exact ⟨hl, Or.inl ⟨rfl, rfl⟩⟩
  | cons op ops ih =>
    rw [runOps] at h
    cases hap : applyOp P l op with
    | none => rw [hap] at h; simp at h
    | some l1 =>
      rw [hap] at h
      obtain ⟨hinv1, hd1⟩ := applyOp_inv P l l1 op hinj
        (fun e he => hjoins e (he ▸ List.mem_cons_self _ _)) hl hap
      obtain ⟨hinvf, hrest⟩ := ih l1 (fun e he => hjoins e (List.mem_cons_of_mem _ he)) hinv1 h
      refine ⟨hinvf, Or.inr ?_⟩
      rcases hrest with ⟨_, hlf⟩ | hlf
      · exact hlf ▸ hd1
      · exact hlf
theorem applyOp_join_UB (P : CryptoPrims) (l l1 : LogState) (e : EncodedEntry)
    (hg : Genuine P e)
    (hr : ClockInRange e.entry.clock)
    (hl3 : l.head = none → l.entries = [])
    (hub : HeadUB P l)
    (hsr : ∀ kv ∈ l.entries, ∀ d, Decode P kv.2 = some d → ClockInRange d.entry.clock)
    (hhr : ∀ h0, l.head = some h0 → ClockInRange h0.entry.clock)
    (h : applyOp P l (.join e) = some l1) :
    HeadUB P l1 ∧ (l1.head = none → l1.entries = []) ∧
    (∀ kv ∈ l1.entries, ∀ d, Decode P kv.2 = some d → ClockInRange d.entry.clock) ∧
    (∀ h0, l1.head = some h0 → ClockInRange h0.entry.clock) := by
  rw [applyOp, Option.map_eq_some'] at h
  obtain ⟨pair, hje, hl1⟩ := h
  rw [JoinEntry] at hje
  by_cases hidok : e.entry.id ≠ l.id
  · rw [if_pos hidok] at hje
    exact absurd hje (by simp)
  rw [if_neg hidok] at hje
  by_cases hver : ¬ VerifyEntrySignatureByEntryKey P e
  · rw [if_pos hver] at hje
    exact absurd hje (by simp)
  rw [if_neg hver] at hje
  rw [if_neg (by simp : ¬ e.hash ∈ ([] : List GoStr))] at hje
  simp only [memPut] at hje
  rw [Option.some_inj] at hje
  have hpair1 : pair.1 = { l with entries := alistPut l.entries e.hash e.bytes, head := (match l.head with | none => some e | some h0 => if CompareClocks e.entry.clock h0.entry.clock > 0 then some e else some h0 : Option EncodedEntry) } := by
    rw [← hje]
  rw [hpair1] at hl1
  subst hl1
  refine ⟨?_, ?_, ?_, ?_⟩
  · intro hd hhd kv hkv d hdec
    dsimp only at hhd hkv
    rcases alistPut_mem hkv with hkv | hkv
    · cases hlh : l.head with
      | none =>
        have hemp : l.entries = [] := hl3 hlh
        rw [hemp] at hkv
        exact absurd hkv (by simp)
      | some h0 =>
        have hold := hub h0 hlh kv hkv d hdec
        rw [hlh] at hhd
        dsimp only at hhd
        by_cases hcmp : CompareClocks e.entry.clock h0.entry.clock > 0
        · rw [if_pos hcmp, Option.some_inj] at hhd
          subst hhd
          exact le_of_lt (CompareClocks_le_lt_trans (hsr kv hkv d hdec) (hhr h0 hlh) hr hold
            (CompareClocks_pos_flip hr (hhr h0 hlh) hcmp))
        · rw [if_neg hcmp, Option.some_inj] at hhd
          subst hhd
          exact hold
    · subst hkv
      have hde : d = e := by
        have h2 := Decode_genuine P e hg
        rw [show ((e.hash, e.bytes) : GoStr × Bytes).2 = e.bytes from rfl] at hdec
        rw [h2, Option.some_inj] at hdec
        exact hdec.symm
      subst hde
      cases hlh : l.head with
      | none =>
        rw [hlh] at hhd
        dsimp only at hhd
        rw [Option.some_inj] at hhd
        subst hhd
        rw [CompareClocks_self]
      | some h0 =>
        rw [hlh] at hhd
        dsimp only at hhd
        by_cases hcmp : CompareClocks d.entry.clock h0.entry.clock > 0
        · rw [if_pos hcmp, Option.some_inj] at hhd
          subst hhd
          rw [CompareClocks_self]
        · rw [if_neg hcmp, Option.some_inj] at hhd
          subst hhd
          exact le_of_not_lt hcmp
  · intro hh
    dsimp only at hh
    cases hlh : l.head with
    | none =>
      rw [hlh] at hh
      exact absurd hh (by simp)
    | some h0 =>
      rw [hlh] at hh
      dsimp only at hh
      by_cases hcmp : CompareClocks e.entry.clock h0.entry.clock > 0
      · rw [if_pos hcmp] at hh
        exact absurd hh (by simp)
      · rw [if_neg hcmp] at hh
        exact absurd hh (by simp)
  · intro kv hkv d hdec
    dsimp only at hkv
    rcases alistPut_mem hkv with hkv | hkv
    · exact hsr kv hkv d hdec
    · subst hkv
      have hde : d = e := by
        have h2 := Decode_genuine P e hg
        rw [show ((e.hash, e.bytes) : GoStr × Bytes).2 = e.bytes from rfl] at hdec
        rw [h2, Option.some_inj] at hdec
        exact hdec.symm
      subst hde
      exact hr
  · intro h0 hh0
    dsimp only at hh0
    cases hlh : l.head with
    | none =>
      rw [hlh] at hh0
      dsimp only at hh0
      rw [Option.some_inj] at hh0
      subst hh0
      exact hr
    | some h1 =>
      rw [hlh] at hh0
      dsimp only at hh0
      by_cases hcmp : CompareClocks e.entry.clock h1.entry.clock > 0
      · rw [if_pos hcmp, Option.some_inj] at hh0
        subst hh0
        exact hr
      · rw [if_neg hcmp, Option.some_inj] at hh0
        subst hh0
        exact hhr h1 hlh

theorem runOps_joinOnly_UB (P : CryptoPrims) (ops : List LogOp) (l lf : LogState)
    (hjoins : ∀ e, LogOp.join e ∈ ops → Genuine P e)
    (hranges : ∀ e, LogOp.join e ∈ ops → ClockInRange e.entry.clock)
    (hallj : ∀ op ∈ ops, ∃ e, op = LogOp.join e)
    (hl3 : l.head = none → l.entries = [])
    (hub : HeadUB P l)
    (hsr : ∀ kv ∈ l.entries, ∀ d, Decode P kv.2 = some d → ClockInRange d.entry.clock)
    (hhr : ∀ h0, l.head = some h0 → ClockInRange h0.entry.clock)
    (h : runOps P l ops = some lf) :
    HeadUB P lf := by
  induction ops generalizing l with
  | nil =>
    rw [runOps, Option.some_inj] at h
    subst h
    exact hub
  | cons op ops ih =>
    obtain ⟨e, rfl⟩ := hallj op (List.mem_cons_self _ _)
    rw [runOps] at h
    cases hap : applyOp P l (.join e) with
    | none => rw [hap] at h; simp at h
    | some l1 =>
      rw [hap] at h
      obtain ⟨hub1, hl31, hsr1, hhr1⟩ := applyOp_join_UB P l l1 e
        (hjoins e (List.mem_cons_self _ _)) (hranges e (List.mem_cons_self _ _))
        hl3 hub hsr hhr hap
      exact ih l1 (fun e2 he2 => hjoins e2 (List.mem_cons_of_mem _ he2))
        (fun e2 he2 => hranges e2 (List.mem_cons_of_mem _ he2))
        (fun op2 hop2 => hallj op2 (List.mem_cons_of_mem _ hop2)) hl31 hub1 hsr1 hhr1 h

/-- C4 (amended): after any nonempty successful sequence of `Append`s and
`JoinEntry`s from a fresh log (hashing collision-free, joined entries keyed
by the hash of their bytes), the head is non-null and stored under its hash;
and when the sequence consists of `JoinEntry`s of genuine entries alone, all
with clock times below `2^62` in magnitude — so the `int64` subtraction in
`CompareClocks` cannot overflow — the head's clock is greatest among all
stored entries (equal clocks keep the incumbent head — there is no hash
tiebreak in the code).  `Append` sets the head unconditionally, so in mixed
sequences a stored entry can dominate the head, as the counterexample
shows. -/
theorem C4_head_amended (P : CryptoPrims) (ops : List LogOp) (logid : GoStr)
    (ident : Identity) (lf : LogState)
    (hinj : ∀ b1 b2, P.hashOf b1 = P.hashOf b2 → b1 = b2)
    (hjoins : ∀ e, LogOp.join e ∈ ops → e.hash = P.hashOf e.bytes)
    (hrun : runOps P (NewLogState logid ident) ops = some lf)
    (hne : ops ≠ []) :
    (∃ h, lf.head = some h ∧ alistGet lf.entries h.hash = some h.bytes) ∧
    ((∀ e, LogOp.join e ∈ ops → Genuine P e) →
      (∀ e, LogOp.join e ∈ ops → ClockInRange e.entry.clock) →
      (∀ op ∈ ops, ∃ e, op = LogOp.join e) →
      ∀ h kv d, lf.head = some h → kv ∈ lf.entries → Decode P kv.2 = some d →
        CompareClocks d.entry.clock h.entry.clock ≤ 0) := by
  have hinit : LogInv P (NewLogState logid ident) := by
    refine ⟨?_, ?_, fun _ => rfl⟩
    · intro kv hkv
      exact absurd hkv (by simp [NewLogState])
    · intro h hh
      exact absurd hh (by simp [NewLogState])
  obtain ⟨hinv, hd⟩ := runOps_inv P ops _ lf hinj hjoins hinit hrun
  rcases hd with ⟨hops, _⟩ | ⟨h, hh⟩
  · exact absurd hops hne
  refine ⟨⟨h, hh, (hinv.2.1 h hh).2⟩, ?_⟩
  intro hgen hranges hallj h2 kv d hh2 hkv hdec
  exact runOps_joinOnly_UB P ops _ lf hgen hranges hallj
    (by intro hh3; rfl)
    (by intro h3 hh3; exact absurd hh3 (by simp [NewLogState]))
    (by intro kv2 hkv2; exact absurd hkv2 (by simp [NewLogState]))
    (by intro h3 hh3; exact absurd hh3 (by simp [NewLogState]))
    hrun h2 hh2 kv hkv d hdec

/-- The state after joining one genuine remote entry into a fresh log. -/
def cexJoined : LogState :=
  (runOps trivialPrims (NewLogState [108] kvIdent) [LogOp.join cexEB]).get (by decide)

set_option maxRecDepth 200000 in
/-- Closed instance of C4 (amended) on a join-only sequence. -/
theorem C4_head_amended_witness :
    (∃ h, cexJoined.head = some h ∧ alistGet cexJoined.entries h.hash = some h.bytes) ∧
    ((∀ e, LogOp.join e ∈ [LogOp.join cexEB] → Genuine trivialPrims e) →
      (∀ e, LogOp.join e ∈ [LogOp.join cexEB] → ClockInRange e.entry.clock) →
      (∀ op ∈ [LogOp.join cexEB], ∃ e, op = LogOp.join e) →
      ∀ h kv d, cexJoined.head = some h → kv ∈ cexJoined.entries →
        Decode trivialPrims kv.2 = some d →
        CompareClocks d.entry.clock h.entry.clock ≤ 0) :=
  C4_head_amended trivialPrims [LogOp.join cexEB] [108] kvIdent cexJoined
    (fun b1 b2 hb => hb)
    (by
      intro e he
      rw [List.mem_singleton] at he
      injection he with he
      subst he
      rfl)
    (Option.some_get (by decide)).symm
    (List.cons_ne_nil _ _)

end OrbitDB
